import Mathlib

/-!
# Tic-tac-toe with a heuristic opponent: board, strategy and session

A shallow embedding of `basic3x3tictactoewithAI/tictactoewithAI.c`.

* `char` values are natural numbers (their character codes); only equality of
  cells matters to the program, so signedness plays no role.
* The global `char board[3][3]` is a function from row and column to the cell
  contents; `board[r][c] = v` is `setCell`.
* The globals `board`, `gameStarted`, `lastMove`, the log file and the text
  written to the terminal are gathered in the record `Game`.
* `rand()` is a stream `rng : Nat → Nat`; `Game.draws` counts the calls made so
  far, so the next call returns `rng draws`.
* The `do … while` loop of `aiMove` may run for ever; it is given a bound on the
  number of draws and returns `none` when the bound is reached.
* `fopen` in `logResult` may return `NULL`; its results are a stream
  `Game.fopenOk`, and `Game.opens` counts the calls made so far.
-/

namespace TicTacToe

/-! ## Characters -/

/-- Character code of `'X'`, the human's mark. -/
abbrev cX : Nat := 88

/-- Character code of `'O'`, the opponent's mark. -/
abbrev cO : Nat := 79

/-- Character code of `'1'`, the placeholder of position 1. -/
abbrev c1 : Nat := 49

/-! ## Board -/

/-- The array `char board[3][3]`: row, column ↦ contents. -/
abbrev Board := Nat → Nat → Nat

/-- The assignment `board[r][c] = v`. -/
def setCell (b : Board) (r c v : Nat) : Board :=
  fun i j => if i = r ∧ j = c then v else b i j

/-- The zero-initialised global array the program starts with. -/
def zeroBoard : Board := fun _ _ => 0

/-- The nine cells in row-major order. -/
def cells (b : Board) : List Nat :=
  [b 0 0, b 0 1, b 0 2, b 1 0, b 1 1, b 1 2, b 2 0, b 2 1, b 2 2]

/-- The board with the given nine cells, in row-major order. -/
def ofCells (l : List Nat) : Board := fun r c => l.getD (3 * r + c) 0

/-- Inner loop of `initBoard`: `for (j…) board[i][j] = c++`, on the pair
(board, `c`). -/
def initRow (i : Nat) (s : Board × Nat) : Board × Nat :=
  [0, 1, 2].foldl (fun s j => (setCell s.1 i j s.2, s.2 + 1)) s

/-- Function `initBoard`: fills the cells with `'1'`, …, `'9'` in row-major order. -/
def initBoard (b : Board) : Board :=
  ([0, 1, 2].foldl (fun s i => initRow i s) (b, c1)).1

/-- Loop of `checkWin` over the indices still to visit: `some v` when the loop
returns `v`, `none` when it runs to its end. -/
def checkWinLoop (b : Board) : List Nat → Option Nat
  | [] => none
  | i :: rest =>
    if b i 0 = b i 1 ∧ b i 1 = b i 2 then some (b i 0)
    else if b 0 i = b 1 i ∧ b 1 i = b 2 i then some (b 0 i)
    else checkWinLoop b rest

/-- Function `checkWin`. -/
def checkWin (b : Board) : Nat :=
  match checkWinLoop b [0, 1, 2] with
  | some v => v
  | none =>
    if b 0 0 = b 1 1 ∧ b 1 1 = b 2 2 then b 0 0
    else if b 0 2 = b 1 1 ∧ b 1 1 = b 2 0 then b 0 2
    else 0

/-- Function `boardFull`: 0 as soon as a cell is neither `'X'` nor `'O'`, else 1. -/
def boardFull (b : Board) : Nat :=
  if [0, 1, 2].any (fun i => [0, 1, 2].any (fun j => b i j ≠ cX ∧ b i j ≠ cO))
  then 0 else 1

/-! ## Program state -/

/-- What the program writes to the terminal, one value per `printf` group. -/
inductive Event
  /-- A fixed message. -/
  | text (s : String)
  /-- The line `Your last move: %d`, written on entry to `aiMove`. -/
  | yourLastMove (n : Nat)
  /-- Function `aiSpeak`: line `idx` of table `type` (0 mid-game, 1 win, 2 lose). -/
  | aiLine (type idx : Nat)
  /-- Function `printBoard`, with the cells it draws. -/
  | boardPrint (cs : List Nat)
  deriving DecidableEq, Repr

/-- The globals of the program, its log file and its terminal output. -/
structure Game where
  /-- The array `board`. -/
  board : Board
  /-- The flag `gameStarted`. -/
  gameStarted : Nat
  /-- The variable `lastMove`. -/
  lastMove : Nat
  /-- Number of calls of `rand()` so far. -/
  draws : Nat
  /-- The lines of the log file: game number and result. -/
  logfile : List (Nat × String)
  /-- The terminal output, oldest first. -/
  out : List Event
  /-- The file system as `logResult` meets it: whether call number `k` of `fopen`
  returns a stream (`true`) or `NULL` (`false`). -/
  fopenOk : Nat → Bool
  /-- Number of calls of `fopen` so far. -/
  opens : Nat

/-- The state at program start: zeroed globals, an empty log, a file system on
which every `fopen` succeeds. -/
def Game.initial : Game :=
  { board := zeroBoard, gameStarted := 0, lastMove := 0, draws := 0, logfile := [], out := [],
    fopenOk := fun _ => true, opens := 0 }

/-- A `printf`. -/
def emit (e : Event) (g : Game) : Game := { g with out := g.out ++ [e] }

/-- Function `printBoard` (zoom and colour are not modelled). -/
def printBoard (g : Game) : Game := emit (Event.boardPrint (cells g.board)) g

/-- Size of `aiMidGameLines`. -/
abbrev midCount : Nat := 10

/-- Size of `aiWinLines`. -/
abbrev winCount : Nat := 8

/-- Size of `aiLoseLines`. -/
abbrev loseCount : Nat := 8

/-- One call of `rand()` reduced modulo `m`, printed as line of table `type`. -/
def speakLine (rng : Nat → Nat) (type m : Nat) (g : Game) : Game :=
  { g with out := g.out ++ [Event.aiLine type (rng g.draws % m)], draws := g.draws + 1 }

/-- Function `aiSpeak`. -/
def aiSpeak (rng : Nat → Nat) (type : Nat) (g : Game) : Game :=
  if type = 0 ∧ midCount > 0 then speakLine rng 0 midCount g
  else if type = 1 ∧ winCount > 0 then speakLine rng 1 winCount g
  else if type = 2 ∧ loseCount > 0 then speakLine rng 2 loseCount g
  else g

/-- Function `logResult`.  It calls `fopen` twice.  The first call (mode `"r"`)
serves to count the lines of the log; `count` stays 0 when it returns `NULL`.
The second call (mode `"a"`) opens the log for appending: when it returns `NULL`
the function returns without writing, otherwise it appends
`Game <count+1>: <result>`. -/
def logResult (result : String) (g : Game) : Game :=
  let count := if g.fopenOk g.opens then g.logfile.length else 0
  { g with
    opens := g.opens + 2
    logfile :=
      if g.fopenOk (g.opens + 1) then g.logfile ++ [(count + 1, result)] else g.logfile }

/-- Function `playerMove`: the returned flag and the new state. -/
def playerMove (pos : Nat) (g : Game) : Nat × Game :=
  let r := (pos - 1) / 3
  let c := (pos - 1) % 3
  if g.board r c ≠ cX ∧ g.board r c ≠ cO then
    (1, { g with board := setCell g.board r c cX, lastMove := pos })
  else
    (0, emit (Event.text "Invalid move!") g)

/-! ## The opponent -/

/-- First loop of `aiMove` over the positions still to visit.  The flag tells
whether the loop executed `return`; the board is the array at that moment. -/
def tryWin (b : Board) : List Nat → Bool × Board
  | [] => (false, b)
  | i :: rest =>
    let r := (i - 1) / 3
    let c := (i - 1) % 3
    if b r c ≠ cX ∧ b r c ≠ cO then
      let temp := b r c
      let b1 := setCell b r c cO
      if checkWin b1 = cO then (true, b1)
      else tryWin (setCell b1 r c temp) rest
    else tryWin b rest

/-- Second loop of `aiMove` over the positions still to visit. -/
def tryBlock (b : Board) : List Nat → Bool × Board
  | [] => (false, b)
  | i :: rest =>
    let r := (i - 1) / 3
    let c := (i - 1) % 3
    if b r c ≠ cX ∧ b r c ≠ cO then
      let temp := b r c
      let b1 := setCell b r c cX
      if checkWin b1 = cX then (true, setCell b1 r c cO)
      else tryBlock (setCell b1 r c temp) rest
    else tryBlock b rest

/-- The loop `do move = rand()%9; while (occupied)`: with at most `fuel` draws
starting at draw number `k`, the accepted `move` and the number of the next
draw. -/
def drawMove (rng : Nat → Nat) (b : Board) : Nat → Nat → Option (Nat × Nat)
  | 0, _ => none
  | fuel + 1, k =>
    let move := rng k % 9
    if b (move / 3) (move % 3) = cX ∨ b (move / 3) (move % 3) = cO then
      drawMove rng b fuel (k + 1)
    else some (move, k + 1)

/-- The positions `1..9` visited by the two scans of `aiMove`. -/
abbrev positions : List Nat := List.range' 1 9

/-- Function `aiMove`; `none` when the random loop has not accepted a cell
within `fuel` draws. -/
def aiMove (rng : Nat → Nat) (fuel : Nat) (g : Game) : Option Game :=
  let g1 := aiSpeak rng 0 (emit (Event.yourLastMove g.lastMove) g)
  match tryWin g1.board positions with
  | (true, b) => some { g1 with board := b }
  | (false, b) =>
    match tryBlock b positions with
    | (true, b2) => some { g1 with board := b2 }
    | (false, b2) =>
      match drawMove rng b2 fuel g1.draws with
      | none => none
      | some (move, k) =>
        some { g1 with board := setCell b2 (move / 3) (move % 3) cO, draws := k }

/-! ## The session -/

/-- The lines read by `main` that concern the game. -/
inductive Input
  /-- The line `/start`. -/
  | start
  /-- A line of one character, the digit `pos`. -/
  | digit (pos : Nat)

/-- Body of the branch of `main` that handles a position (after the test on
`gameStarted` and on the digit). -/
def turn (rng : Nat → Nat) (fuel pos : Nat) (g : Game) : Option Game :=
  let (ok, g1) := playerMove pos g
  if ok = 0 then some g1
  else if checkWin g1.board = cX then
    let g2 := emit (Event.text "You WIN!") (printBoard g1)
    let g3 := logResult "WIN" (aiSpeak rng 2 g2)
    some { g3 with gameStarted := 0 }
  else if boardFull g1.board ≠ 0 then
    let g2 := emit (Event.text "DRAW!") (printBoard g1)
    let g3 := logResult "DRAW" g2
    some { g3 with gameStarted := 0 }
  else
    match aiMove rng fuel g1 with
    | none => none
    | some g2 =>
      if checkWin g2.board = cO then
        let g3 := emit (Event.text "AI WINS!") (printBoard g2)
        let g4 := logResult "LOSS" (aiSpeak rng 1 g3)
        some { g4 with gameStarted := 0 }
      else some (printBoard g2)

/-- One iteration of the loop of `main` on a game-related line. -/
def mainStep (rng : Nat → Nat) (fuel : Nat) (g : Game) : Input → Option Game
  | Input.start =>
    some (printBoard (emit (Event.text "Game started!")
      { g with board := initBoard g.board, gameStarted := 1 }))
  | Input.digit pos =>
    if g.gameStarted ≠ 0 ∧ 1 ≤ pos ∧ pos ≤ 9 then turn rng fuel pos g
    else some (emit (Event.text "Unknown command. Type /help") g)

/-! ## Vocabulary of the specification -/

/-- A line: three cells, each given by row and column. -/
abbrev Line := (Nat × Nat) × (Nat × Nat) × (Nat × Nat)

/-- The 8 lines: 3 rows, 3 columns, 2 diagonals. -/
def lines : List Line :=
  [((0, 0), (0, 1), (0, 2)), ((1, 0), (1, 1), (1, 2)), ((2, 0), (2, 1), (2, 2)),
   ((0, 0), (1, 0), (2, 0)), ((0, 1), (1, 1), (2, 1)), ((0, 2), (1, 2), (2, 2)),
   ((0, 0), (1, 1), (2, 2)), ((0, 2), (1, 1), (2, 0))]

/-- Mark `m` fully occupies line `L`. -/
def occupies (b : Board) (m : Nat) (L : Line) : Prop :=
  b L.1.1 L.1.2 = m ∧ b L.2.1.1 L.2.1.2 = m ∧ b L.2.2.1 L.2.2.2 = m

instance (b : Board) (m : Nat) (L : Line) : Decidable (occupies b m L) :=
  inferInstanceAs (Decidable (_ ∧ _ ∧ _))

/-- The three cells of `L` hold the same character. -/
def uniform (b : Board) (L : Line) : Prop :=
  b L.1.1 L.1.2 = b L.2.1.1 L.2.1.2 ∧ b L.2.1.1 L.2.1.2 = b L.2.2.1 L.2.2.2

/-- Every cell is Empty (it holds the digit of its position) or holds a mark. -/
def WellFormed (b : Board) : Prop :=
  ∀ r c, r < 3 → c < 3 → b r c = c1 + (3 * r + c) ∨ b r c = cX ∨ b r c = cO

/-- No line is fully occupied by a mark. -/
def noLine (b : Board) : Prop :=
  ∀ L ∈ lines, ¬ occupies b cX L ∧ ¬ occupies b cO L

instance (b : Board) : Decidable (noLine b) :=
  inferInstanceAs (Decidable (∀ L ∈ lines, _))

/-- The cell of position `p`, as every function of the program addresses it. -/
def cellAt (b : Board) (p : Nat) : Nat := b ((p - 1) / 3) ((p - 1) % 3)

/-- The board with `m` written on position `p`. -/
def place (b : Board) (p m : Nat) : Board := setCell b ((p - 1) / 3) ((p - 1) % 3) m

/-- Position `p` is Empty: its cell holds neither mark. -/
def isEmpty (b : Board) (p : Nat) : Prop := cellAt b p ≠ cX ∧ cellAt b p ≠ cO

instance (b : Board) (p : Nat) : Decidable (isEmpty b p) :=
  inferInstanceAs (Decidable (_ ∧ _))

/-- Giving `m` to position `p` yields a board on which `m` fully occupies a line. -/
def completes (b : Board) (p m : Nat) : Prop :=
  ∃ L ∈ lines, occupies (place b p m) m L

instance (b : Board) (p m : Nat) : Decidable (completes b p m) :=
  inferInstanceAs (Decidable (∃ L ∈ lines, _))

/-- Position `p` is an immediate winning cell of mark `m`. -/
def winning (b : Board) (m p : Nat) : Prop := isEmpty b p ∧ completes b p m

instance (b : Board) (m p : Nat) : Decidable (winning b m p) :=
  inferInstanceAs (Decidable (_ ∧ _))

/-- The test of the two scans of `aiMove` on position `p` with probe `m`. -/
def probe (b : Board) (m p : Nat) : Prop := isEmpty b p ∧ checkWin (place b p m) = m

instance (b : Board) (m p : Nat) : Decidable (probe b m p) :=
  inferInstanceAs (Decidable (_ ∧ _))

/-- The board of the fresh game with mark `m` on the three cells of `L`. -/
def lineBoard (L : Line) (m : Nat) : Board :=
  setCell (setCell (setCell (initBoard zeroBoard) L.1.1 L.1.2 m) L.2.1.1 L.2.1.2 m)
    L.2.2.1 L.2.2.2 m

/-- Number of calls of `aiMove` recorded in an output. -/
def aiCalls (out : List Event) : Nat :=
  out.countP (fun e => match e with
    | Event.yourLastMove _ => true
    | _ => false)

/-- The state of `aiMove` when its scans begin: `Your last move` and the
mid-game line are written, one call of `rand()` is spent. -/
def aiEntry (rng : Nat → Nat) (g : Game) : Game :=
  aiSpeak rng 0 (emit (Event.yourLastMove g.lastMove) g)

/-! ## Boards used as examples -/

/-- `X O X / 4 O 6 / 7 O 9`: the middle column belongs to `'O'`. -/
def boardColumnO : Board := ofCells [88, 79, 88, 52, 79, 54, 55, 79, 57]

/-- `X X 3 / O O 6 / 7 8 X`: `'O'` wins on 6 while `'X'` threatens 3. -/
def boardWinNow : Board := ofCells [88, 88, 51, 79, 79, 54, 55, 56, 88]

/-- `X X 3 / 4 O 6 / 7 8 9`: `'X'` threatens 3, `'O'` has no winning cell. -/
def boardBlock : Board := ofCells [88, 88, 51, 52, 79, 54, 55, 56, 57]

/-- `X 2 O / 4 O 6 / X 8 X`: `'X'` threatens both 4 and 8, `'O'` has no winning
cell.  Reached by the moves X1 O5 X9 O3 X7. -/
def boardFork : Board := ofCells [88, 50, 79, 52, 79, 54, 88, 56, 88]

/-- `X O X / X O 6 / O X 9`: positions 6 and 9 are Empty, nobody can win at once. -/
def boardStuck : Board := ofCells [88, 79, 88, 88, 79, 54, 79, 88, 57]

/-- The cell selected by the value `v` of `rand()` holds a mark: the test of the
`do … while` loop of `aiMove`. -/
def drawnOccupied (b : Board) (v : Nat) : Prop :=
  b (v % 9 / 3) (v % 9 % 3) = cX ∨ b (v % 9 / 3) (v % 9 % 3) = cO

instance (b : Board) (v : Nat) : Decidable (drawnOccupied b v) :=
  inferInstanceAs (Decidable (_ ∨ _))

/-- A game in progress on board `b`, nothing drawn, logged or written yet, on a
file system on which every `fopen` succeeds. -/
def gameOn (b : Board) : Game :=
  { board := b, gameStarted := 1, lastMove := 0, draws := 0, logfile := [], out := [],
    fopenOk := fun _ => true, opens := 0 }

/-- The state at program start on a file system on which every `fopen` fails. -/
def initialNoLog : Game :=
  { Game.initial with fopenOk := fun _ => false }

/-- The same game on a file system on which every `fopen` fails. -/
def gameNoLog (b : Board) : Game :=
  { gameOn b with fopenOk := fun _ => false }

/-- `X X 3 / 4 5 6 / 7 8 9`: the human has marked 1 and 2, uncontested. -/
def boardTwoX : Board := place (place (initBoard zeroBoard) 1 cX) 2 cX

/-- `X O X / O X O / O X 9`: `'X'` on the last Empty cell completes a diagonal. -/
def boardLastWin : Board := ofCells [88, 79, 88, 79, 88, 79, 79, 88, 57]

/-- `X O X / X O O / O X 9`: `'X'` on the last Empty cell completes no line. -/
def boardLastDraw : Board := ofCells [88, 79, 88, 88, 79, 79, 79, 88, 57]

/-- `X 2 3 / 4 O 6 / 7 8 9`: one move each, the human to play. -/
def boardOpen : Board := ofCells [88, 50, 51, 52, 79, 54, 55, 56, 57]

/-- `X X 3 / O O 6 / 7 8 9`: two moves each, the human to play. -/
def boardPreLoss : Board := ofCells [88, 88, 51, 79, 79, 54, 55, 56, 57]

/-- The state after a valid placement of the human on `pos`. -/
def afterPlayer (pos : Nat) (g : Game) : Game :=
  { g with board := place g.board pos cX, lastMove := pos }

/-! ## Sessions -/

/-- Number of cells of the grid that hold the character `m`. -/
def countMark (b : Board) (m : Nat) : Nat := (cells b).count m

/-- Mark `m` fully occupies some line. -/
def hasLine (b : Board) (m : Nat) : Prop := ∃ L ∈ lines, occupies b m L

instance (b : Board) (m : Nat) : Decidable (hasLine b m) :=
  inferInstanceAs (Decidable (∃ L ∈ lines, _))

instance (b : Board) (L : Line) : Decidable (uniform b L) :=
  inferInstanceAs (Decidable (_ ∧ _))

/-- A scan of the lines in a given order, as `checkWin` does it in its own order:
the first cell of the first line whose three cells are equal, else 0. -/
def scanLines (b : Board) : List Line → Nat
  | [] => 0
  | L :: rest => if uniform b L then b L.1.1 L.1.2 else scanLines b rest

/-- The order in which `checkWin` visits the lines: row and column `i` for
`i = 0, 1, 2`, then the two diagonals. -/
def codeOrder : List Line :=
  [((0, 0), (0, 1), (0, 2)), ((0, 0), (1, 0), (2, 0)), ((1, 0), (1, 1), (1, 2)),
   ((0, 1), (1, 1), (2, 1)), ((2, 0), (2, 1), (2, 2)), ((0, 2), (1, 2), (2, 2)),
   ((0, 0), (1, 1), (2, 2)), ((0, 2), (1, 1), (2, 0))]

/-- The loop of `main` on a list of game-related lines: the states after each
line, `none` if some call of `aiMove` does not return within `fuel` draws. -/
def run (rng : Nat → Nat) (fuel : Nat) : Game → List Input → Option (List Game)
  | _, [] => some []
  | g, i :: rest =>
    match mainStep rng fuel g i with
    | none => none
    | some g2 =>
      match run rng fuel g2 rest with
      | none => none
      | some tr => some (g2 :: tr)

/-- Number of steps of the trace `tr`, started in `g`, that lead from a game in
progress to a state without one. -/
def endings : Game → List Game → Nat
  | _, [] => 0
  | g, g2 :: tr =>
    (if g.gameStarted ≠ 0 ∧ g2.gameStarted = 0 then 1 else 0) + endings g2 tr

/-- The last state of a trace started in `g`. -/
def lastState : Game → List Game → Game
  | g, [] => g
  | _, g2 :: tr => lastState g2 tr

/-- The state on which one iteration of `main` calls `aiMove`, if it calls it:
the branch for a position, followed up to the call. -/
def aiArg (g : Game) : Input → Option Game
  | Input.start => none
  | Input.digit pos =>
    if g.gameStarted ≠ 0 ∧ 1 ≤ pos ∧ pos ≤ 9 then
      let (ok, g1) := playerMove pos g
      if ok = 0 then none
      else if checkWin g1.board = cX then none
      else if boardFull g1.board ≠ 0 then none
      else some g1
    else none

/-- The facts that hold of every state of a session: the board is well formed,
the two marks do not both own a line, a game in progress has no completed line
and as many `'X'` as `'O'`, and otherwise `'X'` has as many cells as `'O'` or
one more. -/
def Inv (g : Game) : Prop :=
  WellFormed g.board ∧ ¬ (hasLine g.board cX ∧ hasLine g.board cO) ∧
  (g.gameStarted ≠ 0 → noLine g.board ∧ countMark g.board cX = countMark g.board cO) ∧
  (g.gameStarted = 0 → countMark g.board cX = countMark g.board cO ∨
    countMark g.board cX = countMark g.board cO + 1)

/-- An example run at the terminal: a position before any game, a start, a move, a
second start that abandons the game, a move, the same position again, three
more moves of which the last completes the diagonal 3-5-7, a position after the
game, and a restart. -/
def sessionInputs : List Input :=
  [Input.digit 5, Input.start, Input.digit 1, Input.start, Input.digit 5, Input.digit 5,
   Input.digit 1, Input.digit 3, Input.digit 7, Input.digit 2, Input.start]

/-- The lines typed after a first start command in the example run `sessionInputs`. -/
def gameInputs : List Input :=
  [Input.digit 1, Input.start, Input.digit 5, Input.digit 5, Input.digit 1, Input.digit 3,
   Input.digit 7, Input.digit 2, Input.start]

/-! ## The log -/

/-- Between `g` and `g2` the function `logResult` was called once, for `res`.
Two calls of `fopen` were made and the file system is the same.  When the second
call (for appending) returned a stream, the log gained the line
`Game <count+1>: <res>`, where `count` is the number of lines of the log when
the first call (for reading) returned a stream and 0 when it returned `NULL`.
When the second call returned `NULL`, the log is unchanged. -/
def logCalled (res : String) (g g2 : Game) : Prop :=
  g2.opens = g.opens + 2 ∧ g2.fopenOk = g.fopenOk ∧
  (g.fopenOk (g.opens + 1) = true →
    g2.logfile = g.logfile ++
      [((if g.fopenOk g.opens = true then g.logfile.length else 0) + 1, res)]) ∧
  (g.fopenOk (g.opens + 1) = false → g2.logfile = g.logfile)

/-- Between `g` and `g2` the function `logResult` was not called: no call of
`fopen`, the same log, the same file system. -/
def logUntouched (g g2 : Game) : Prop :=
  g2.logfile = g.logfile ∧ g2.opens = g.opens ∧ g2.fopenOk = g.fopenOk

/-! ## Termination of the opponent -/

theorem setCell_same (b : Board) (r c v : Nat) : setCell b r c v r c = v := by
  simp [setCell]

theorem setCell_other (b : Board) (r c v i j : Nat) (h : ¬ (i = r ∧ j = c)) :
    setCell b r c v i j = b i j := by
  simp [setCell, h]

theorem setCell_restore (b : Board) (r c v : Nat) :
    setCell (setCell b r c v) r c (b r c) = b := by
  funext i j
  by_cases h : i = r ∧ j = c
  · obtain ⟨rfl, rfl⟩ := h
    simp [setCell]
  · simp [setCell, h]

theorem setCell_overwrite (b : Board) (r c v w : Nat) :
    setCell (setCell b r c v) r c w = setCell b r c w := by
  funext i j
  by_cases h : i = r ∧ j = c <;> simp [setCell, h]

theorem checkWin_unfold (b : Board) : checkWin b =
    if b 0 0 = b 0 1 ∧ b 0 1 = b 0 2 then b 0 0
    else if b 0 0 = b 1 0 ∧ b 1 0 = b 2 0 then b 0 0
    else if b 1 0 = b 1 1 ∧ b 1 1 = b 1 2 then b 1 0
    else if b 0 1 = b 1 1 ∧ b 1 1 = b 2 1 then b 0 1
    else if b 2 0 = b 2 1 ∧ b 2 1 = b 2 2 then b 2 0
    else if b 0 2 = b 1 2 ∧ b 1 2 = b 2 2 then b 0 2
    else if b 0 0 = b 1 1 ∧ b 1 1 = b 2 2 then b 0 0
    else if b 0 2 = b 1 1 ∧ b 1 1 = b 2 0 then b 0 2
    else 0 := by
  unfold checkWin checkWinLoop checkWinLoop checkWinLoop checkWinLoop
  split_ifs <;> rfl

/-- The result of `checkWin` is the first cell of a line whose three cells are
equal, or 0 when there is no such line. -/
theorem checkWin_cases (b : Board) :
    (∃ L ∈ lines, uniform b L ∧ checkWin b = b L.1.1 L.1.2) ∨
    ((∀ L ∈ lines, ¬ uniform b L) ∧ checkWin b = 0) := by
  rw [checkWin_unfold]
  by_cases h1 : b 0 0 = b 0 1 ∧ b 0 1 = b 0 2
  · exact Or.inl ⟨((0, 0), (0, 1), (0, 2)), by simp [lines], h1, by rw [if_pos h1]⟩
  rw [if_neg h1]
  by_cases h2 : b 0 0 = b 1 0 ∧ b 1 0 = b 2 0
  · exact Or.inl ⟨((0, 0), (1, 0), (2, 0)), by simp [lines], h2, by rw [if_pos h2]⟩
  rw [if_neg h2]
  by_cases h3 : b 1 0 = b 1 1 ∧ b 1 1 = b 1 2
  · exact Or.inl ⟨((1, 0), (1, 1), (1, 2)), by simp [lines], h3, by rw [if_pos h3]⟩
  rw [if_neg h3]
  by_cases h4 : b 0 1 = b 1 1 ∧ b 1 1 = b 2 1
  · exact Or.inl ⟨((0, 1), (1, 1), (2, 1)), by simp [lines], h4, by rw [if_pos h4]⟩
  rw [if_neg h4]
  by_cases h5 : b 2 0 = b 2 1 ∧ b 2 1 = b 2 2
  · exact Or.inl ⟨((2, 0), (2, 1), (2, 2)), by simp [lines], h5, by rw [if_pos h5]⟩
  rw [if_neg h5]
  by_cases h6 : b 0 2 = b 1 2 ∧ b 1 2 = b 2 2
  · exact Or.inl ⟨((0, 2), (1, 2), (2, 2)), by simp [lines], h6, by rw [if_pos h6]⟩
  rw [if_neg h6]
  by_cases h7 : b 0 0 = b 1 1 ∧ b 1 1 = b 2 2
  · exact Or.inl ⟨((0, 0), (1, 1), (2, 2)), by simp [lines], h7, by rw [if_pos h7]⟩
  rw [if_neg h7]
  by_cases h8 : b 0 2 = b 1 1 ∧ b 1 1 = b 2 0
  · exact Or.inl ⟨((0, 2), (1, 1), (2, 0)), by simp [lines], h8, by rw [if_pos h8]⟩
  rw [if_neg h8]
  refine Or.inr ⟨?_, rfl⟩
  intro L hL
  simp only [lines, List.mem_cons, List.mem_singleton, List.not_mem_nil, or_false] at hL
  rcases hL with rfl | rfl | rfl | rfl | rfl | rfl | rfl | rfl <;> assumption

theorem lines_bound (L : Line) (hL : L ∈ lines) :
    L.1.1 < 3 ∧ L.1.2 < 3 ∧ L.2.1.1 < 3 ∧ L.2.1.2 < 3 ∧ L.2.2.1 < 3 ∧ L.2.2.2 < 3 := by
  simp only [lines, List.mem_cons, List.mem_singleton, List.not_mem_nil, or_false] at hL
  rcases hL with rfl | rfl | rfl | rfl | rfl | rfl | rfl | rfl <;> decide

/-- On a well-formed board three equal cells of a line hold a mark: the
placeholders of distinct positions differ. -/
theorem uniform_mark (b : Board) (h : WellFormed b) (L : Line) (hL : L ∈ lines)
    (hu : uniform b L) : occupies b cX L ∨ occupies b cO L := by
  obtain ⟨b1, b2, b3, b4, b5, b6⟩ := lines_bound L hL
  have w1 := h _ _ b1 b2
  have w2 := h _ _ b3 b4
  have w3 := h _ _ b5 b6
  unfold uniform at hu
  unfold occupies
  simp only [lines, List.mem_cons, List.mem_singleton, List.not_mem_nil, or_false] at hL
  simp only [cX, cO, c1] at *
  rcases hL with rfl | rfl | rfl | rfl | rfl | rfl | rfl | rfl <;> simp only [] at * <;> omega

theorem occupies_uniform (b : Board) (m : Nat) (L : Line) (h : occupies b m L) :
    uniform b L := by
  obtain ⟨h1, h2, h3⟩ := h
  exact ⟨h1.trans h2.symm, h2.trans h3.symm⟩

/-- A non-zero result of `checkWin` fully occupies a line. -/
theorem checkWin_occupies (b : Board) (m : Nat) (h : checkWin b = m) (hm : m ≠ 0) :
    ∃ L ∈ lines, occupies b m L := by
  rcases checkWin_cases b with ⟨L, hL, hu, hv⟩ | ⟨_, h0⟩
  · refine ⟨L, hL, ?_⟩
    rw [h] at hv
    exact ⟨hv.symm, hu.1 ▸ hv.symm, hu.2 ▸ hu.1 ▸ hv.symm⟩
  · omega

theorem checkWin_range (b : Board) (h : WellFormed b) :
    checkWin b = 0 ∨ checkWin b = cX ∨ checkWin b = cO := by
  rcases checkWin_cases b with ⟨L, hL, hu, hv⟩ | ⟨_, h0⟩
  · rcases uniform_mark b h L hL hu with ho | ho
    · exact Or.inr (Or.inl (hv.trans ho.1))
    · exact Or.inr (Or.inr (hv.trans ho.1))
  · exact Or.inl h0

theorem checkWin_zero_iff (b : Board) (h : WellFormed b) : checkWin b = 0 ↔ noLine b := by
  constructor
  · intro h0 L hL
    constructor
    · intro ho
      rcases checkWin_cases b with ⟨L2, hL2, hu, hv⟩ | ⟨hn, _⟩
      · rcases uniform_mark b h L2 hL2 hu with ho2 | ho2 <;>
          · have := hv.trans ho2.1
            simp only [cX, cO] at this
            omega
      · exact hn L hL (occupies_uniform b _ L ho)
    · intro ho
      rcases checkWin_cases b with ⟨L2, hL2, hu, hv⟩ | ⟨hn, _⟩
      · rcases uniform_mark b h L2 hL2 hu with ho2 | ho2 <;>
          · have := hv.trans ho2.1
            simp only [cX, cO] at this
            omega
      · exact hn L hL (occupies_uniform b _ L ho)
  · intro hn
    rcases checkWin_cases b with ⟨L, hL, hu, _⟩ | ⟨_, h0⟩
    · rcases uniform_mark b h L hL hu with ho | ho
      · exact absurd ho (hn L hL).1
      · exact absurd ho (hn L hL).2
    · exact h0

theorem initBoard_cell (b : Board) (r c : Nat) (hr : r < 3) (hc : c < 3) :
    initBoard b r c = c1 + (3 * r + c) := by
  interval_cases r <;> interval_cases c <;>
    simp [initBoard, initRow, setCell]

theorem initBoard_wellFormed (b : Board) : WellFormed (initBoard b) := by
  intro r c hr hc
  exact Or.inl (initBoard_cell b r c hr hc)

/-! ## The scans of the opponent -/

theorem wellFormed_setCell (b : Board) (h : WellFormed b) (r c m : Nat)
    (hm : m = cX ∨ m = cO) : WellFormed (setCell b r c m) := by
  intro i j hi hj
  by_cases hij : i = r ∧ j = c
  · obtain ⟨rfl, rfl⟩ := hij
    rw [setCell_same]
    exact Or.inr hm
  · rw [setCell_other _ _ _ _ _ _ hij]
    exact h i j hi hj

theorem lineBoard_checkWin (L : Line) (hL : L ∈ lines) (m : Nat) (hm : m = cX ∨ m = cO) :
    checkWin (lineBoard L m) = m := by
  simp only [lines, List.mem_cons, List.mem_singleton, List.not_mem_nil, or_false] at hL
  rcases hL with rfl | rfl | rfl | rfl | rfl | rfl | rfl | rfl <;>
    rcases hm with rfl | rfl <;> decide

theorem probe_iff_winning (b : Board) (hwf : WellFormed b) (hno : noLine b) (m p : Nat)
    (hm : m = cX ∨ m = cO) : probe b m p ↔ winning b m p := by
  unfold probe winning
  refine and_congr_right (fun _ => ?_)
  constructor
  · intro h
    refine checkWin_occupies _ m h ?_
    rcases hm with rfl | rfl <;> decide
  · rintro ⟨L, hL, ho⟩
    have hwf2 : WellFormed (place b p m) := wellFormed_setCell b hwf _ _ m hm
    rcases checkWin_cases (place b p m) with ⟨L2, hL2, hu, hv⟩ | ⟨hn, _⟩
    · -- the line found holds a mark; the other mark would be a line of `b`
      have key : ∀ m2, (m2 = cX ∨ m2 = cO) → occupies (place b p m) m2 L2 → m2 = m := by
        intro m2 hm2 ho2
        by_contra hne
        have hb : occupies b m2 L2 := by
          obtain ⟨h1, h2, h3⟩ := ho2
          refine ⟨?_, ?_, ?_⟩
          · unfold place setCell at h1; split_ifs at h1 with hc
            · exact absurd h1.symm hne
            · exact h1
          · unfold place setCell at h2; split_ifs at h2 with hc
            · exact absurd h2.symm hne
            · exact h2
          · unfold place setCell at h3; split_ifs at h3 with hc
            · exact absurd h3.symm hne
            · exact h3
        rcases hm2 with rfl | rfl
        · exact (hno L2 hL2).1 hb
        · exact (hno L2 hL2).2 hb
      rcases uniform_mark _ hwf2 L2 hL2 hu with ho2 | ho2
      · rw [hv, ho2.1]; exact key _ (Or.inl rfl) ho2
      · rw [hv, ho2.1]; exact key _ (Or.inr rfl) ho2
    · exact absurd (occupies_uniform _ _ L ho) (hn L hL)

theorem probe_of (b : Board) (m i : Nat)
    (he : b ((i - 1) / 3) ((i - 1) % 3) ≠ cX ∧ b ((i - 1) / 3) ((i - 1) % 3) ≠ cO)
    (hc : checkWin (setCell b ((i - 1) / 3) ((i - 1) % 3) m) = m) : probe b m i :=
  ⟨he, hc⟩

theorem tryWin_none (b : Board) (l : List Nat) (h : ∀ i ∈ l, ¬ probe b cO i) :
    tryWin b l = (false, b) := by
  induction l with
  | nil => rfl
  | cons i rest ih =>
    have hi := h i (List.mem_cons_self _ _)
    have hr := ih (fun j hj => h j (List.mem_cons_of_mem _ hj))
    unfold tryWin
    simp only []
    split_ifs with he hc
    · exact absurd (probe_of b cO i he hc) hi
    · rw [setCell_restore]; exact hr
    · exact hr

theorem tryWin_first (b : Board) (pre post : List Nat) (p : Nat)
    (h : ∀ i ∈ pre, ¬ probe b cO i) (hp : probe b cO p) :
    tryWin b (pre ++ p :: post) = (true, place b p cO) := by
  induction pre with
  | nil =>
    simp only [List.nil_append]
    unfold tryWin
    simp only []
    have he : b ((p - 1) / 3) ((p - 1) % 3) ≠ cX ∧ b ((p - 1) / 3) ((p - 1) % 3) ≠ cO := hp.1
    have hc : checkWin (setCell b ((p - 1) / 3) ((p - 1) % 3) cO) = cO := hp.2
    rw [if_pos he, if_pos hc]
    rfl
  | cons i rest ih =>
    have hi := h i (List.mem_cons_self _ _)
    have hr := ih (fun j hj => h j (List.mem_cons_of_mem _ hj))
    simp only [List.cons_append]
    unfold tryWin
    simp only []
    split_ifs with he hc
    · exact absurd (probe_of b cO i he hc) hi
    · rw [setCell_restore]; exact hr
    · exact hr

theorem tryBlock_none (b : Board) (l : List Nat) (h : ∀ i ∈ l, ¬ probe b cX i) :
    tryBlock b l = (false, b) := by
  induction l with
  | nil => rfl
  | cons i rest ih =>
    have hi := h i (List.mem_cons_self _ _)
    have hr := ih (fun j hj => h j (List.mem_cons_of_mem _ hj))
    unfold tryBlock
    simp only []
    split_ifs with he hc
    · exact absurd (probe_of b cX i he hc) hi
    · rw [setCell_restore]; exact hr
    · exact hr

theorem tryBlock_first (b : Board) (pre post : List Nat) (p : Nat)
    (h : ∀ i ∈ pre, ¬ probe b cX i) (hp : probe b cX p) :
    tryBlock b (pre ++ p :: post) = (true, place b p cO) := by
  induction pre with
  | nil =>
    simp only [List.nil_append]
    unfold tryBlock
    simp only []
    have he : b ((p - 1) / 3) ((p - 1) % 3) ≠ cX ∧ b ((p - 1) / 3) ((p - 1) % 3) ≠ cO := hp.1
    have hc : checkWin (setCell b ((p - 1) / 3) ((p - 1) % 3) cX) = cX := hp.2
    rw [if_pos he, if_pos hc, setCell_overwrite]
    rfl
  | cons i rest ih =>
    have hi := h i (List.mem_cons_self _ _)
    have hr := ih (fun j hj => h j (List.mem_cons_of_mem _ hj))
    simp only [List.cons_append]
    unfold tryBlock
    simp only []
    split_ifs with he hc
    · exact absurd (probe_of b cX i he hc) hi
    · rw [setCell_restore]; exact hr
    · exact hr

theorem positions_split (p : Nat) (h1 : 1 ≤ p) (h9 : p ≤ 9) :
    positions = List.range' 1 (p - 1) ++ p :: List.range' (p + 1) (9 - p) := by
  interval_cases p <;> rfl

theorem mem_positions (q : Nat) : q ∈ positions ↔ 1 ≤ q ∧ q ≤ 9 := by
  rw [positions, List.mem_range'_1]
  omega

theorem mem_before (p q : Nat) (h : q ∈ List.range' 1 (p - 1)) : 1 ≤ q ∧ q < p := by
  rw [List.mem_range'_1] at h
  omega

theorem exists_least (P : Nat → Prop) [DecidablePred P] (h : ∃ p, 1 ≤ p ∧ p ≤ 9 ∧ P p) :
    ∃ p, 1 ≤ p ∧ p ≤ 9 ∧ P p ∧ ∀ q, 1 ≤ q → q < p → ¬ P q := by
  classical
  refine ⟨Nat.find h, (Nat.find_spec h).1, (Nat.find_spec h).2.1, (Nat.find_spec h).2.2, ?_⟩
  intro q hq1 hqp hP
  have h9 : Nat.find h ≤ 9 := (Nat.find_spec h).2.1
  exact Nat.find_min h hqp ⟨hq1, by omega, hP⟩

theorem aiEntry_board (rng : Nat → Nat) (g : Game) : (aiEntry rng g).board = g.board := by
  simp [aiEntry, aiSpeak, speakLine, emit]

theorem aiEntry_draws (rng : Nat → Nat) (g : Game) : (aiEntry rng g).draws = g.draws + 1 := by
  simp [aiEntry, aiSpeak, speakLine, emit]

theorem aiMove_unfold (rng : Nat → Nat) (fuel : Nat) (g : Game) :
    aiMove rng fuel g =
      match tryWin g.board positions with
      | (true, b) => some { aiEntry rng g with board := b }
      | (false, b) =>
        match tryBlock b positions with
        | (true, b2) => some { aiEntry rng g with board := b2 }
        | (false, b2) =>
          match drawMove rng b2 fuel (g.draws + 1) with
          | none => none
          | some (move, k) =>
            some { aiEntry rng g with
              board := setCell b2 (move / 3) (move % 3) cO, draws := k } := by
  unfold aiMove
  simp only [← aiEntry.eq_1, aiEntry_board, aiEntry_draws]

theorem aiMove_win (rng : Nat → Nat) (fuel : Nat) (g : Game) (p : Nat) (h1 : 1 ≤ p)
    (h9 : p ≤ 9) (hp : probe g.board cO p)
    (hmin : ∀ q, 1 ≤ q → q < p → ¬ probe g.board cO q) :
    aiMove rng fuel g = some { aiEntry rng g with board := place g.board p cO } := by
  rw [aiMove_unfold, positions_split p h1 h9,
    tryWin_first g.board _ _ p (fun i hi => hmin i (mem_before p i hi).1 (mem_before p i hi).2) hp]

theorem aiMove_block (rng : Nat → Nat) (fuel : Nat) (g : Game) (p : Nat) (h1 : 1 ≤ p)
    (h9 : p ≤ 9) (hnw : ∀ q, 1 ≤ q → q ≤ 9 → ¬ probe g.board cO q)
    (hp : probe g.board cX p)
    (hmin : ∀ q, 1 ≤ q → q < p → ¬ probe g.board cX q) :
    aiMove rng fuel g = some { aiEntry rng g with board := place g.board p cO } := by
  rw [aiMove_unfold,
    tryWin_none g.board positions
      (fun i hi => hnw i ((mem_positions i).1 hi).1 ((mem_positions i).1 hi).2)]
  simp only []
  rw [positions_split p h1 h9,
    tryBlock_first g.board _ _ p (fun i hi => hmin i (mem_before p i hi).1 (mem_before p i hi).2) hp]

theorem aiMove_random (rng : Nat → Nat) (fuel : Nat) (g : Game)
    (hnw : ∀ q, 1 ≤ q → q ≤ 9 → ¬ probe g.board cO q)
    (hnb : ∀ q, 1 ≤ q → q ≤ 9 → ¬ probe g.board cX q) :
    aiMove rng fuel g =
      (drawMove rng g.board fuel (g.draws + 1)).map (fun mk =>
        { aiEntry rng g with
          board := setCell g.board (mk.1 / 3) (mk.1 % 3) cO, draws := mk.2 }) := by
  rw [aiMove_unfold,
    tryWin_none g.board positions
      (fun i hi => hnw i ((mem_positions i).1 hi).1 ((mem_positions i).1 hi).2)]
  simp only []
  rw [tryBlock_none g.board positions
      (fun i hi => hnb i ((mem_positions i).1 hi).1 ((mem_positions i).1 hi).2)]
  simp only []
  cases drawMove rng g.board fuel (g.draws + 1) with
  | none => rfl
  | some mk => rfl

/-! ## Frame of the opponent and the random loop -/

theorem tryWin_frame (b : Board) (l : List Nat) :
    tryWin b l = (false, b) ∨ ∃ p ∈ l, isEmpty b p ∧ tryWin b l = (true, place b p cO) := by
  induction l with
  | nil => exact Or.inl rfl
  | cons i rest ih =>
    unfold tryWin
    simp only []
    split_ifs with he hc
    · exact Or.inr ⟨i, List.mem_cons_self _ _, he, rfl⟩
    · rw [setCell_restore]
      rcases ih with h | ⟨p, hp, hpe, h⟩
      · exact Or.inl h
      · exact Or.inr ⟨p, List.mem_cons_of_mem _ hp, hpe, h⟩
    · rcases ih with h | ⟨p, hp, hpe, h⟩
      · exact Or.inl h
      · exact Or.inr ⟨p, List.mem_cons_of_mem _ hp, hpe, h⟩

theorem tryBlock_frame (b : Board) (l : List Nat) :
    tryBlock b l = (false, b) ∨
      ∃ p ∈ l, isEmpty b p ∧ tryBlock b l = (true, place b p cO) := by
  induction l with
  | nil => exact Or.inl rfl
  | cons i rest ih =>
    unfold tryBlock
    simp only []
    split_ifs with he hc
    · exact Or.inr ⟨i, List.mem_cons_self _ _, he, by rw [setCell_overwrite]; rfl⟩
    · rw [setCell_restore]
      rcases ih with h | ⟨p, hp, hpe, h⟩
      · exact Or.inl h
      · exact Or.inr ⟨p, List.mem_cons_of_mem _ hp, hpe, h⟩
    · rcases ih with h | ⟨p, hp, hpe, h⟩
      · exact Or.inl h
      · exact Or.inr ⟨p, List.mem_cons_of_mem _ hp, hpe, h⟩

theorem drawMove_some (rng : Nat → Nat) (b : Board) (fuel k : Nat) (mk : Nat × Nat)
    (h : drawMove rng b fuel k = some mk) :
    mk.1 < 9 ∧ b (mk.1 / 3) (mk.1 % 3) ≠ cX ∧ b (mk.1 / 3) (mk.1 % 3) ≠ cO ∧ k < mk.2 := by
  induction fuel generalizing k with
  | zero => simp [drawMove] at h
  | succ n ih =>
    unfold drawMove at h
    simp only [] at h
    split_ifs at h with hocc
    · obtain ⟨h1, h2, h3, h4⟩ := ih (k + 1) h
      exact ⟨h1, h2, h3, by omega⟩
    · cases h
      push_neg at hocc
      exact ⟨Nat.mod_lt _ (by decide), hocc.1, hocc.2, by simp⟩

theorem drawMove_exact (rng : Nat → Nat) (b : Board) (fuel k n : Nat) (hn : n < fuel)
    (hocc : ∀ j, j < n → drawnOccupied b (rng (k + j)))
    (hfree : ¬ drawnOccupied b (rng (k + n))) :
    drawMove rng b fuel k = some (rng (k + n) % 9, k + n + 1) := by
  induction fuel generalizing k n with
  | zero => omega
  | succ f ih =>
    unfold drawMove
    simp only []
    cases n with
    | zero =>
      have hf : ¬ (b (rng k % 9 / 3) (rng k % 9 % 3) = cX ∨
          b (rng k % 9 / 3) (rng k % 9 % 3) = cO) := hfree
      rw [if_neg hf]
      rfl
    | succ m =>
      have ho : b (rng k % 9 / 3) (rng k % 9 % 3) = cX ∨
          b (rng k % 9 / 3) (rng k % 9 % 3) = cO := hocc 0 (by omega)
      rw [if_pos ho, ih (k + 1) m (by omega)
        (fun j hj => by have := hocc (j + 1) (by omega); rwa [show k + 1 + j = k + (j + 1) by omega])
        (by rwa [show k + 1 + m = k + (m + 1) by omega])]
      rw [show k + 1 + m = k + (m + 1) by omega]

theorem drawMove_none (rng : Nat → Nat) (b : Board) (fuel k : Nat)
    (hocc : ∀ j, j < fuel → drawnOccupied b (rng (k + j))) :
    drawMove rng b fuel k = none := by
  induction fuel generalizing k with
  | zero => rfl
  | succ f ih =>
    unfold drawMove
    simp only []
    have ho : b (rng k % 9 / 3) (rng k % 9 % 3) = cX ∨
        b (rng k % 9 / 3) (rng k % 9 % 3) = cO := hocc 0 (by omega)
    rw [if_pos ho]
    exact ih (k + 1) (fun j hj => by
      have := hocc (j + 1) (by omega); rwa [show k + 1 + j = k + (j + 1) by omega])

theorem aiEntry_fields (rng : Nat → Nat) (g : Game) :
    (aiEntry rng g).gameStarted = g.gameStarted ∧ (aiEntry rng g).lastMove = g.lastMove ∧
    (aiEntry rng g).logfile = g.logfile ∧
    (aiEntry rng g).out =
      g.out ++ [Event.yourLastMove g.lastMove, Event.aiLine 0 (rng g.draws % 10)] := by
  simp [aiEntry, aiSpeak, speakLine, emit]

theorem position_cell (p : Nat) (hp : p ∈ positions) : (p - 1) / 3 < 3 ∧ (p - 1) % 3 < 3 := by
  rw [mem_positions] at hp
  omega

/-- What a returning call of `aiMove` has done. -/
theorem aiMove_frame (rng : Nat → Nat) (fuel : Nat) (g g2 : Game)
    (h : aiMove rng fuel g = some g2) :
    ∃ r c, r < 3 ∧ c < 3 ∧ g.board r c ≠ cX ∧ g.board r c ≠ cO ∧
      g2.board = setCell g.board r c cO ∧ g2.gameStarted = g.gameStarted ∧
      g2.lastMove = g.lastMove ∧ g2.logfile = g.logfile ∧
      g2.out = g.out ++ [Event.yourLastMove g.lastMove, Event.aiLine 0 (rng g.draws % 10)] ∧
      g.draws < g2.draws := by
  obtain ⟨e1, e2, e3, e4⟩ := aiEntry_fields rng g
  rw [aiMove_unfold] at h
  rcases tryWin_frame g.board positions with hw | ⟨p, hp, hpe, hw⟩
  · rw [hw] at h
    simp only [] at h
    rcases tryBlock_frame g.board positions with hb | ⟨p, hp, hpe, hb⟩
    · rw [hb] at h
      simp only [] at h
      cases hd : drawMove rng g.board fuel (g.draws + 1) with
      | none => rw [hd] at h; simp at h
      | some mk =>
        rw [hd] at h
        simp only [Option.some.injEq] at h
        obtain ⟨d1, d2, d3, d4⟩ := drawMove_some rng g.board fuel _ mk hd
        subst h
        exact ⟨mk.1 / 3, mk.1 % 3, by omega, by omega, d2, d3, rfl, e1, e2, e3, e4, by
          show g.draws < mk.2
          omega⟩
    · rw [hb] at h
      simp only [Option.some.injEq] at h
      subst h
      obtain ⟨c1, c2⟩ := position_cell p hp
      exact ⟨_, _, c1, c2, hpe.1, hpe.2, rfl, e1, e2, e3, e4, by
        show g.draws < (aiEntry rng g).draws
        rw [aiEntry_draws]; omega⟩
  · rw [hw] at h
    simp only [Option.some.injEq] at h
    subst h
    obtain ⟨c1, c2⟩ := position_cell p hp
    exact ⟨_, _, c1, c2, hpe.1, hpe.2, rfl, e1, e2, e3, e4, by
      show g.draws < (aiEntry rng g).draws
      rw [aiEntry_draws]; omega⟩

/-- Well-formedness read off the nine cells. -/
theorem wellFormed_of_cells (b : Board)
    (h : (b 0 0 = 49 ∨ b 0 0 = 88 ∨ b 0 0 = 79) ∧ (b 0 1 = 50 ∨ b 0 1 = 88 ∨ b 0 1 = 79) ∧
      (b 0 2 = 51 ∨ b 0 2 = 88 ∨ b 0 2 = 79) ∧ (b 1 0 = 52 ∨ b 1 0 = 88 ∨ b 1 0 = 79) ∧
      (b 1 1 = 53 ∨ b 1 1 = 88 ∨ b 1 1 = 79) ∧ (b 1 2 = 54 ∨ b 1 2 = 88 ∨ b 1 2 = 79) ∧
      (b 2 0 = 55 ∨ b 2 0 = 88 ∨ b 2 0 = 79) ∧ (b 2 1 = 56 ∨ b 2 1 = 88 ∨ b 2 1 = 79) ∧
      (b 2 2 = 57 ∨ b 2 2 = 88 ∨ b 2 2 = 79)) : WellFormed b := by
  obtain ⟨h00, h01, h02, h10, h11, h12, h20, h21, h22⟩ := h
  intro r c hr hc
  interval_cases r <;> interval_cases c <;> assumption

/-! ## Claims about `checkWin` and `aiMove` -/

/-- **C1.** On a board whose cells each hold their position digit or a mark,
`checkWin` returns 0, `'X'` or `'O'`; it returns a mark only if that mark fully
occupies one of the 8 lines; it returns 0 exactly when no line is fully occupied
by a mark; and for each of the 8 lines and each mark, the board with that mark
on the line and every other cell Empty is well formed and gives that mark. -/
theorem checkWin_correct (b : Board) (hwf : WellFormed b) :
    (checkWin b = 0 ∨ checkWin b = cX ∨ checkWin b = cO) ∧
    (∀ m, m = cX ∨ m = cO → checkWin b = m → ∃ L ∈ lines, occupies b m L) ∧
    (checkWin b = 0 ↔ ∀ L ∈ lines, ¬ occupies b cX L ∧ ¬ occupies b cO L) ∧
    (∀ L ∈ lines, ∀ m, m = cX ∨ m = cO →
      WellFormed (lineBoard L m) ∧ checkWin (lineBoard L m) = m) := by
  refine ⟨checkWin_range b hwf, ?_, checkWin_zero_iff b hwf, ?_⟩
  · intro m hm h
    refine checkWin_occupies b m h ?_
    rcases hm with rfl | rfl <;> decide
  · intro L hL m hm
    refine ⟨?_, lineBoard_checkWin L hL m hm⟩
    exact wellFormed_setCell _ (wellFormed_setCell _ (wellFormed_setCell _
      (initBoard_wellFormed _) _ _ m hm) _ _ m hm) _ _ m hm

/-- Instance of C1: the board `X O X / 4 O 6 / 7 O 9`. -/
theorem checkWin_correct_witness :
    WellFormed boardColumnO ∧ checkWin boardColumnO = cO ∧
      ∃ L ∈ lines, occupies boardColumnO cO L :=
  have hwf : WellFormed boardColumnO := wellFormed_of_cells _ (by decide)
  ⟨hwf, by decide, (checkWin_correct boardColumnO hwf).2.1 cO (Or.inr rfl) (by decide)⟩

/-- **C2.** On a well-formed board without a completed line, if some Empty
position would complete a line of `'O'`, then `aiMove` (whatever the random
source and the bound on draws) returns, having placed `'O'` on the lowest such
position, and `checkWin` is `'O'` afterwards; nothing is assumed about the
human's winning cells. -/
theorem aiMove_win_now (rng : Nat → Nat) (fuel : Nat) (g : Game)
    (hwf : WellFormed g.board) (hno : noLine g.board)
    (hex : ∃ p, 1 ≤ p ∧ p ≤ 9 ∧ winning g.board cO p) :
    ∃ p, 1 ≤ p ∧ p ≤ 9 ∧ winning g.board cO p ∧
      (∀ q, 1 ≤ q → q < p → ¬ winning g.board cO q) ∧
      ∃ g2, aiMove rng fuel g = some g2 ∧ g2.board = place g.board p cO ∧
        checkWin g2.board = cO := by
  obtain ⟨p, h1, h9, hp, hmin⟩ := exists_least (winning g.board cO) hex
  have hpr : probe g.board cO p := (probe_iff_winning _ hwf hno cO p (Or.inr rfl)).2 hp
  refine ⟨p, h1, h9, hp, hmin, _, aiMove_win rng fuel g p h1 h9 hpr ?_, rfl, hpr.2⟩
  intro q hq1 hqp hq
  exact hmin q hq1 hqp ((probe_iff_winning _ hwf hno cO q (Or.inr rfl)).1 hq)

/-- Instance of C2: with `'O'` on 4 and 5 and `'X'` threatening 3, `aiMove`
places `'O'` on 6. -/
theorem aiMove_win_now_witness :
    winning boardWinNow cX 3 ∧
    ∃ g2, aiMove (fun _ => 0) 0 (gameOn boardWinNow) = some g2 ∧
      cells g2.board = [88, 88, 51, 79, 79, 79, 55, 56, 88] := by
  refine ⟨by decide, ?_⟩
  obtain ⟨p, h1, h9, hp, -, g2, hg, hb, -⟩ :=
    aiMove_win_now (fun _ => 0) 0 (gameOn boardWinNow)
      (wellFormed_of_cells _ (by decide)) (by decide) ⟨6, by decide, by decide, by decide⟩
  refine ⟨g2, hg, ?_⟩
  rw [hb]
  have hp6 : p = 6 := by
    revert hp
    interval_cases p <;> decide
  subst hp6
  decide

/-- **C3.** On a well-formed board without a completed line on which `'O'` has
no immediate winning cell, if some Empty position would complete a line of
`'X'`, then `aiMove` returns with `'O'` on the lowest such position and every
other cell unchanged, the same position for every random source and every bound
on draws. -/
theorem aiMove_blocks (g : Game)
    (hwf : WellFormed g.board) (hno : noLine g.board)
    (hnw : ∀ p, 1 ≤ p → p ≤ 9 → ¬ winning g.board cO p)
    (hex : ∃ p, 1 ≤ p ∧ p ≤ 9 ∧ winning g.board cX p) :
    ∃ p, 1 ≤ p ∧ p ≤ 9 ∧ winning g.board cX p ∧
      (∀ q, 1 ≤ q → q < p → ¬ winning g.board cX q) ∧
      ∀ (rng : Nat → Nat) (fuel : Nat),
        ∃ g2, aiMove rng fuel g = some g2 ∧ g2.board = place g.board p cO := by
  obtain ⟨p, h1, h9, hp, hmin⟩ := exists_least (winning g.board cX) hex
  have hpr : probe g.board cX p := (probe_iff_winning _ hwf hno cX p (Or.inl rfl)).2 hp
  refine ⟨p, h1, h9, hp, hmin, fun rng fuel => ⟨_, aiMove_block rng fuel g p h1 h9 ?_ hpr ?_, rfl⟩⟩
  · intro q hq1 hq9 hq
    exact hnw q hq1 hq9 ((probe_iff_winning _ hwf hno cO q (Or.inr rfl)).1 hq)
  · intro q hq1 hqp hq
    exact hmin q hq1 hqp ((probe_iff_winning _ hwf hno cX q (Or.inl rfl)).1 hq)

/-- Instance of C3: with `'X'` on 1 and 2 and `'O'` on 5, `aiMove` places `'O'`
on 3. -/
theorem aiMove_blocks_witness :
    ∃ g2, aiMove (fun n => n) 0 (gameOn boardBlock) = some g2 ∧
      cells g2.board = [88, 88, 79, 52, 79, 54, 55, 56, 57] := by
  obtain ⟨p, h1, h9, hp, -, h⟩ :=
    aiMove_blocks (gameOn boardBlock)
      (wellFormed_of_cells _ (by decide)) (by decide)
      (by intro p h1 h9; interval_cases p <;> decide) ⟨3, by decide, by decide, by decide⟩
  obtain ⟨g2, hg, hb⟩ := h (fun n => n) 0
  refine ⟨g2, hg, ?_⟩
  rw [hb]
  have hp3 : p = 3 := by
    revert hp
    interval_cases p <;> decide
  subst hp3
  decide

/-- After `'O'` is written on an Empty cell, the immediate winning cells of
`'X'` are those it had before, the written cell excepted. -/
theorem winning_after_O (b : Board) (r c q : Nat) (he : b r c ≠ cX ∧ b r c ≠ cO) :
    winning (setCell b r c cO) cX q ↔
      winning b cX q ∧ ¬ ((q - 1) / 3 = r ∧ (q - 1) % 3 = c) := by
  have hcell : ∀ i j, ¬ ((q - 1) / 3 = r ∧ (q - 1) % 3 = c) →
      (place (setCell b r c cO) q cX i j = cX ↔ place b q cX i j = cX) := by
    intro i j hq
    unfold place setCell
    by_cases h1 : i = (q - 1) / 3 ∧ j = (q - 1) % 3
    · simp [h1]
    · by_cases h2 : i = r ∧ j = c
      · obtain ⟨rfl, rfl⟩ := h2
        simp only [h1, if_false, and_self, if_true]
        constructor
        · intro h; exact absurd h (by decide)
        · intro h; exact absurd h he.1
      · simp [h1, h2]
  constructor
  · rintro ⟨hem, L, hL, ho⟩
    have hq : ¬ ((q - 1) / 3 = r ∧ (q - 1) % 3 = c) := by
      rintro ⟨rfl, rfl⟩
      exact hem.2 (setCell_same b _ _ cO)
    have hem2 : isEmpty b q := by
      unfold isEmpty cellAt at hem ⊢
      rwa [setCell_other _ _ _ _ _ _ hq] at hem
    exact ⟨⟨hem2, L, hL, (hcell _ _ hq).1 ho.1, (hcell _ _ hq).1 ho.2.1,
      (hcell _ _ hq).1 ho.2.2⟩, hq⟩
  · rintro ⟨⟨hem, L, hL, ho⟩, hq⟩
    have hem2 : isEmpty (setCell b r c cO) q := by
      unfold isEmpty cellAt at hem ⊢
      rwa [setCell_other _ _ _ _ _ _ hq]
    exact ⟨hem2, L, hL, (hcell _ _ hq).2 ho.1, (hcell _ _ hq).2 ho.2.1,
      (hcell _ _ hq).2 ho.2.2⟩

/-- **C4, counterexample.** On `X 2 O / 4 O 6 / X 8 X` (well formed, no
completed line, no winning cell for `'O'`) `aiMove` blocks position 4 and
position 8 still completes a line of `'X'`. -/
theorem aiMove_leaves_fork :
    WellFormed boardFork ∧ noLine boardFork ∧
    (∀ p, 1 ≤ p → p ≤ 9 → ¬ winning boardFork cO p) ∧
    ∃ g2, aiMove (fun _ => 0) 0 (gameOn boardFork) = some g2 ∧
      cells g2.board = [88, 50, 79, 79, 79, 54, 88, 56, 88] ∧ winning g2.board cX 8 := by
  have hwf : WellFormed boardFork := wellFormed_of_cells _ (by decide)
  have hno : noLine boardFork := by decide
  have hnw : ∀ p, 1 ≤ p → p ≤ 9 → ¬ winning boardFork cO p := by
    intro p h1 h9; interval_cases p <;> decide
  refine ⟨hwf, hno, hnw, _, aiMove_block (fun _ => 0) 0 (gameOn boardFork)
    4 (by decide) (by decide) ?_ (by decide) ?_, by decide, by decide⟩
  · intro q h1 h9; interval_cases q <;> decide
  · intro q h1 h4; interval_cases q <;> decide

/-- **C4, amended.** On a well-formed board without a completed line on which
`'O'` has no immediate winning cell: `aiMove` returns whenever `'X'` has an
immediate winning cell, and after any returning call a position is an immediate
winning cell of `'X'` exactly when it was one before the call and is not the
lowest-numbered one.  So a threat is left only if `'X'` had two or more. -/
theorem aiMove_threats_left (rng : Nat → Nat) (fuel : Nat) (g : Game)
    (hwf : WellFormed g.board) (hno : noLine g.board)
    (hnw : ∀ p, 1 ≤ p → p ≤ 9 → ¬ winning g.board cO p) :
    ((∃ p, 1 ≤ p ∧ p ≤ 9 ∧ winning g.board cX p) → ∃ g2, aiMove rng fuel g = some g2) ∧
    ∀ g2, aiMove rng fuel g = some g2 → ∀ q, 1 ≤ q → q ≤ 9 →
      (winning g2.board cX q ↔
        winning g.board cX q ∧ ∃ p, 1 ≤ p ∧ p < q ∧ winning g.board cX p) := by
  have toProbeO : ∀ q, 1 ≤ q → q ≤ 9 → ¬ probe g.board cO q := fun q h1 h9 hq =>
    hnw q h1 h9 ((probe_iff_winning _ hwf hno cO q (Or.inr rfl)).1 hq)
  by_cases hex : ∃ p, 1 ≤ p ∧ p ≤ 9 ∧ winning g.board cX p
  · obtain ⟨p, h1, h9, hp, hmin⟩ := exists_least (winning g.board cX) hex
    have hpr : probe g.board cX p := (probe_iff_winning _ hwf hno cX p (Or.inl rfl)).2 hp
    have hai := aiMove_block rng fuel g p h1 h9 toProbeO hpr (fun q hq1 hqp hq =>
      hmin q hq1 hqp ((probe_iff_winning _ hwf hno cX q (Or.inl rfl)).1 hq))
    refine ⟨fun _ => ⟨_, hai⟩, ?_⟩
    intro g2 hg2 q hq1 hq9
    rw [hai] at hg2
    cases hg2
    show winning (setCell g.board ((p - 1) / 3) ((p - 1) % 3) cO) cX q ↔ _
    rw [winning_after_O g.board _ _ q hp.1]
    constructor
    · rintro ⟨hq, hne⟩
      refine ⟨hq, p, h1, ?_, hp⟩
      by_contra hlt
      have hqp : q = p ∨ q < p := by omega
      rcases hqp with rfl | hqp
      · exact hne ⟨rfl, rfl⟩
      · exact hmin q hq1 hqp hq
    · rintro ⟨hq, p2, h21, h2q, hp2⟩
      refine ⟨hq, ?_⟩
      have hle : p ≤ p2 := by
        by_contra hlt
        exact hmin p2 h21 (by omega) hp2
      omega
  · refine ⟨fun h => absurd h hex, ?_⟩
    intro g2 hg2 q hq1 hq9
    obtain ⟨r, c, -, -, he1, he2, hb, -⟩ := aiMove_frame rng fuel g g2 hg2
    rw [hb, winning_after_O g.board r c q ⟨he1, he2⟩]
    constructor
    · rintro ⟨hq, -⟩
      exact absurd ⟨q, hq1, hq9, hq⟩ hex
    · rintro ⟨hq, -⟩
      exact absurd ⟨q, hq1, hq9, hq⟩ hex

/-- Instance of C4 (amended): the single threat of `X X 3 / 4 O 6 / 7 8 9` is
gone after `aiMove`. -/
theorem aiMove_threats_left_witness :
    ∃ g2, aiMove (fun _ => 0) 0 (gameOn boardBlock) = some g2 ∧
      ∀ q, 1 ≤ q → q ≤ 9 → ¬ winning g2.board cX q := by
  have h := aiMove_threats_left (fun _ => 0) 0 (gameOn boardBlock)
    (wellFormed_of_cells _ (by decide)) (by decide)
    (by intro p h1 h9; interval_cases p <;> decide)
  obtain ⟨g2, hg2⟩ := h.1 ⟨3, by decide, by decide, by decide⟩
  refine ⟨g2, hg2, ?_⟩
  intro q hq1 hq9 hq
  obtain ⟨hqb, p, hp1, hpq, hp⟩ := (h.2 g2 hg2 q hq1 hq9).1 hq
  have only3 : ∀ x, 1 ≤ x → x ≤ 9 → winning (gameOn boardBlock).board cX x → x = 3 := by
    intro x hx1 hx9
    interval_cases x <;> decide
  have hq3 := only3 q hq1 hq9 hqb
  have hp3 := only3 p hp1 (by omega) hp
  omega

/-- **C5.** Whenever `aiMove` returns (any board, any random source, any of
its three branches), the board differs from the input in exactly one cell of
the grid: that cell held no mark before and holds `'O'` after, and every other
cell has its previous contents. -/
theorem aiMove_one_cell (rng : Nat → Nat) (fuel : Nat) (g g2 : Game)
    (h : aiMove rng fuel g = some g2) :
    ∃ r c, r < 3 ∧ c < 3 ∧ (g.board r c ≠ cX ∧ g.board r c ≠ cO) ∧ g2.board r c = cO ∧
      ∀ i j, ¬ (i = r ∧ j = c) → g2.board i j = g.board i j := by
  obtain ⟨r, c, hr, hc, he1, he2, hb, -⟩ := aiMove_frame rng fuel g g2 h
  refine ⟨r, c, hr, hc, ⟨he1, he2⟩, ?_, ?_⟩
  · rw [hb, setCell_same]
  · intro i j hij
    rw [hb, setCell_other _ _ _ _ _ _ hij]

/-- Instance of C5 on the random branch: `X O X / X O 6 / O X 9` with the
draws 0, 1, 2, …. -/
theorem aiMove_one_cell_witness :
    ∃ g2, aiMove (fun n => n) 9 (gameOn boardStuck) = some g2 ∧
    ∃ r c, r < 3 ∧ c < 3 ∧ (boardStuck r c ≠ cX ∧ boardStuck r c ≠ cO) ∧ g2.board r c = cO ∧
      ∀ i j, ¬ (i = r ∧ j = c) → g2.board i j = boardStuck i j := by
  have hnw : ∀ q, 1 ≤ q → q ≤ 9 → ¬ probe boardStuck cO q := by
    intro q h1 h9; interval_cases q <;> decide
  have hnb : ∀ q, 1 ≤ q → q ≤ 9 → ¬ probe boardStuck cX q := by
    intro q h1 h9; interval_cases q <;> decide
  have hai := aiMove_random (fun n => n) 9 (gameOn boardStuck) hnw hnb
  rw [show drawMove (fun n => n) (gameOn boardStuck).board 9 ((gameOn boardStuck).draws + 1) =
    some (5, 6) by decide] at hai
  exact ⟨_, hai, aiMove_one_cell _ _ _ _ hai⟩

/-- A returning `aiMove` needs no fallback draw when a scan finds its cell. -/
theorem aiMove_scan_returns (rng : Nat → Nat) (fuel : Nat) (g : Game)
    (h : ∃ p, 1 ≤ p ∧ p ≤ 9 ∧ (probe g.board cO p ∨ probe g.board cX p)) :
    ∃ g2, aiMove rng fuel g = some g2 ∧ g2.draws = g.draws + 1 := by
  by_cases hw : ∃ p, 1 ≤ p ∧ p ≤ 9 ∧ probe g.board cO p
  · obtain ⟨p, h1, h9, hp, hmin⟩ := exists_least (probe g.board cO) hw
    exact ⟨_, aiMove_win rng fuel g p h1 h9 hp hmin, aiEntry_draws rng g⟩
  · have hnw : ∀ q, 1 ≤ q → q ≤ 9 → ¬ probe g.board cO q :=
      fun q h1 h9 hq => hw ⟨q, h1, h9, hq⟩
    have hb : ∃ p, 1 ≤ p ∧ p ≤ 9 ∧ probe g.board cX p := by
      obtain ⟨p, h1, h9, hp | hp⟩ := h
      · exact absurd hp (hnw p h1 h9)
      · exact ⟨p, h1, h9, hp⟩
    obtain ⟨p, h1, h9, hp, hmin⟩ := exists_least (probe g.board cX) hb
    exact ⟨_, aiMove_block rng fuel g p h1 h9 hnw hp hmin, aiEntry_draws rng g⟩

/-- If fallback draw number `n` selects an Empty cell, `aiMove` returns once more
than `n` draws are allowed. -/
theorem aiMove_returns_of_draw (rng : Nat → Nat) (g : Game) (n fuel : Nat)
    (hfree : ¬ drawnOccupied g.board (rng (g.draws + 1 + n))) (hn : n < fuel) :
    ∃ g2, aiMove rng fuel g = some g2 ∧ g2.draws ≤ g.draws + 1 + n + 1 := by
  by_cases hs : ∃ p, 1 ≤ p ∧ p ≤ 9 ∧ (probe g.board cO p ∨ probe g.board cX p)
  · obtain ⟨g2, hg2, hd⟩ := aiMove_scan_returns rng fuel g hs
    exact ⟨g2, hg2, by omega⟩
  · have hnw : ∀ q, 1 ≤ q → q ≤ 9 → ¬ probe g.board cO q :=
      fun q h1 h9 hq => hs ⟨q, h1, h9, Or.inl hq⟩
    have hnb : ∀ q, 1 ≤ q → q ≤ 9 → ¬ probe g.board cX q :=
      fun q h1 h9 hq => hs ⟨q, h1, h9, Or.inr hq⟩
    have hfirst : ∃ m, ¬ drawnOccupied g.board (rng (g.draws + 1 + m)) := ⟨n, hfree⟩
    classical
    have hm := Nat.find_spec hfirst
    have hle : Nat.find hfirst ≤ n := Nat.find_min' hfirst hfree
    have hocc : ∀ j, j < Nat.find hfirst → drawnOccupied g.board (rng (g.draws + 1 + j)) :=
      fun j hj => not_not.1 (Nat.find_min hfirst hj)
    rw [aiMove_random rng fuel g hnw hnb,
      drawMove_exact rng g.board fuel (g.draws + 1) (Nat.find hfirst) (by omega) hocc hm]
    exact ⟨_, rfl, by show g.draws + 1 + Nat.find hfirst + 1 ≤ _; omega⟩

/-- In the model a random source that returns 0 for ever keeps `aiMove` drawing
the occupied top-left cell of `X O X / X O 6 / O X 9`: the termination of the
fallback loop rests on a property of the source. -/
theorem aiMove_may_not_return :
    isEmpty boardStuck 6 ∧ isEmpty boardStuck 9 ∧
    ¬ ∃ fuel g2, aiMove (fun _ => 0) fuel (gameOn boardStuck) = some g2 := by
  refine ⟨by decide, by decide, ?_⟩
  rintro ⟨fuel, g2, h⟩
  have hnw : ∀ q, 1 ≤ q → q ≤ 9 → ¬ probe (gameOn boardStuck).board cO q := by
    intro q h1 h9; interval_cases q <;> decide
  have hnb : ∀ q, 1 ≤ q → q ≤ 9 → ¬ probe (gameOn boardStuck).board cX q := by
    intro q h1 h9; interval_cases q <;> decide
  rw [aiMove_random _ fuel (gameOn boardStuck) hnw hnb,
    drawMove_none _ _ fuel _ (fun j _ => by decide)] at h
  simp at h

theorem playerMove_empty (pos : Nat) (g : Game) (he : isEmpty g.board pos) :
    playerMove pos g = (1, { g with board := place g.board pos cX, lastMove := pos }) := by
  have he2 : g.board ((pos - 1) / 3) ((pos - 1) % 3) ≠ cX ∧
      g.board ((pos - 1) / 3) ((pos - 1) % 3) ≠ cO := he
  unfold playerMove
  simp only []
  rw [if_pos he2]
  rfl

theorem playerMove_occupied (pos : Nat) (g : Game)
    (ho : cellAt g.board pos = cX ∨ cellAt g.board pos = cO) :
    playerMove pos g = (0, emit (Event.text "Invalid move!") g) := by
  have he2 : ¬ (g.board ((pos - 1) / 3) ((pos - 1) % 3) ≠ cX ∧
      g.board ((pos - 1) / 3) ((pos - 1) % 3) ≠ cO) := by
    unfold cellAt at ho
    rcases ho with h | h <;> simp [h]
  unfold playerMove
  simp only []
  rw [if_neg he2]

theorem aiCalls_append (l1 l2 : List Event) : aiCalls (l1 ++ l2) = aiCalls l1 + aiCalls l2 := by
  simp [aiCalls, List.countP_append]

theorem boardFull_eq_one_iff (b : Board) :
    boardFull b = 1 ↔ ∀ r c, r < 3 → c < 3 → b r c = cX ∨ b r c = cO := by
  unfold boardFull
  constructor
  · intro h r c hr hc
    by_cases hany : ([0, 1, 2].any (fun i => [0, 1, 2].any (fun j => b i j ≠ cX ∧ b i j ≠ cO))) = true
    · rw [if_pos hany] at h
      omega
    · simp only [List.any_cons, List.any_nil, Bool.or_false, Bool.or_eq_true, not_or,
        decide_eq_true_eq, Bool.decide_and, Bool.and_eq_true, not_and, not_not] at hany
      by_contra hcon
      push_neg at hcon
      interval_cases r <;> interval_cases c <;> simp_all
  · intro h
    rw [if_neg]
    simp only [List.any_cons, List.any_nil, Bool.or_false, Bool.or_eq_true, not_or,
        decide_eq_true_eq, Bool.decide_and, Bool.and_eq_true, not_and, not_not]
    have h00 := h 0 0 (by omega) (by omega)
    have h01 := h 0 1 (by omega) (by omega)
    have h02 := h 0 2 (by omega) (by omega)
    have h10 := h 1 0 (by omega) (by omega)
    have h11 := h 1 1 (by omega) (by omega)
    have h12 := h 1 2 (by omega) (by omega)
    have h20 := h 2 0 (by omega) (by omega)
    have h21 := h 2 1 (by omega) (by omega)
    have h22 := h 2 2 (by omega) (by omega)
    refine ⟨⟨?_, ?_, ?_⟩, ⟨?_, ?_, ?_⟩, ⟨?_, ?_, ?_⟩⟩ <;> intro hx <;> simp_all

theorem boardFull_range (b : Board) : boardFull b = 0 ∨ boardFull b = 1 := by
  unfold boardFull
  split_ifs <;> simp

theorem mainStep_digit (rng : Nat → Nat) (fuel : Nat) (g : Game) (pos : Nat)
    (hs : g.gameStarted ≠ 0) (h1 : 1 ≤ pos) (h9 : pos ≤ 9) :
    mainStep rng fuel g (Input.digit pos) = turn rng fuel pos g := by
  show (if g.gameStarted ≠ 0 ∧ 1 ≤ pos ∧ pos ≤ 9 then turn rng fuel pos g else _) = _
  rw [if_pos ⟨hs, h1, h9⟩]

theorem turn_valid (rng : Nat → Nat) (fuel : Nat) (g : Game) (pos : Nat)
    (he : isEmpty g.board pos) :
    turn rng fuel pos g =
      if checkWin (place g.board pos cX) = cX then
        some { logResult "WIN" (aiSpeak rng 2 (emit (Event.text "You WIN!")
          (printBoard (afterPlayer pos g)))) with gameStarted := 0 }
      else if boardFull (place g.board pos cX) ≠ 0 then
        some { logResult "DRAW" (emit (Event.text "DRAW!") (printBoard (afterPlayer pos g))) with
          gameStarted := 0 }
      else
        match aiMove rng fuel (afterPlayer pos g) with
        | none => none
        | some g2 =>
          if checkWin g2.board = cO then
            some { logResult "LOSS" (aiSpeak rng 1 (emit (Event.text "AI WINS!")
              (printBoard g2))) with gameStarted := 0 }
          else some (printBoard g2) := by
  unfold turn
  rw [playerMove_empty pos g he]
  simp only [if_neg (show ¬ (1 = 0) by decide)]
  rfl

theorem turn_invalid (rng : Nat → Nat) (fuel : Nat) (g : Game) (pos : Nat)
    (ho : cellAt g.board pos = cX ∨ cellAt g.board pos = cO) :
    turn rng fuel pos g = some (emit (Event.text "Invalid move!") g) := by
  unfold turn
  rw [playerMove_occupied pos g ho]
  simp

theorem logResult_called (res : String) (g : Game) : logCalled res g (logResult res g) := by
  refine ⟨rfl, rfl, fun h => ?_, fun h => ?_⟩
  · show (if g.fopenOk (g.opens + 1) = true then _ else _) = _
    rw [if_pos h]
  · show (if g.fopenOk (g.opens + 1) = true then _ else _) = _
    rw [if_neg (by simp [h])]

theorem logCalled_congr (res : String) (g g1 g2 : Game) (ho : g1.opens = g.opens)
    (hf : g1.fopenOk = g.fopenOk) (hl : g1.logfile = g.logfile) (h : logCalled res g1 g2) :
    logCalled res g g2 := by
  unfold logCalled at h ⊢
  rw [ho, hf, hl] at h
  exact h

theorem logCalled_length (res : String) (g g2 : Game) (h : logCalled res g g2) :
    g2.logfile.length ≤ g.logfile.length + 1 ∧
    (g.fopenOk (g.opens + 1) = true → g2.logfile.length = g.logfile.length + 1) ∧
    ∃ added, g2.logfile = g.logfile ++ added ∧ ∀ e ∈ added, e.2 = res := by
  obtain ⟨-, -, hok, hfail⟩ := h
  cases hc : g.fopenOk (g.opens + 1) with
  | true =>
    have := hok hc
    refine ⟨by rw [this]; simp, fun _ => by rw [this]; simp, _, this, ?_⟩
    intro e he
    rw [List.mem_singleton] at he
    rw [he]
  | false =>
    have := hfail hc
    exact ⟨by rw [this]; omega, fun h => by simp at h, [], by rw [this]; simp, by simp⟩

/-- The calls of `fopen` and the file system are not touched by `aiMove`. -/
theorem aiMove_env (rng : Nat → Nat) (fuel : Nat) (g g2 : Game)
    (h : aiMove rng fuel g = some g2) : g2.opens = g.opens ∧ g2.fopenOk = g.fopenOk := by
  have e1 : (aiEntry rng g).opens = g.opens := by simp [aiEntry, aiSpeak, speakLine, emit]
  have e2 : (aiEntry rng g).fopenOk = g.fopenOk := by simp [aiEntry, aiSpeak, speakLine, emit]
  rw [aiMove_unfold] at h
  rcases tryWin_frame g.board positions with hw | ⟨p, -, -, hw⟩
  · rw [hw] at h
    simp only [] at h
    rcases tryBlock_frame g.board positions with hb | ⟨p, -, -, hb⟩
    · rw [hb] at h
      simp only [] at h
      cases hd : drawMove rng g.board fuel (g.draws + 1) with
      | none => rw [hd] at h; simp at h
      | some mk =>
        rw [hd] at h
        simp only [Option.some.injEq] at h
        subst h
        exact ⟨e1, e2⟩
    · rw [hb] at h
      simp only [Option.some.injEq] at h
      subst h
      exact ⟨e1, e2⟩
  · rw [hw] at h
    simp only [Option.some.injEq] at h
    subst h
    exact ⟨e1, e2⟩

/-- **C7.** In a session in progress, when the human submits a position of
1..9 whose cell is Empty and `checkWin` is `'X'` after the placement, the step
returns with `gameStarted = 0`, the board exactly as the placement left it, and
an output without the line that `aiMove` writes.  The outcome `WIN` is handed to
`logResult` once: the log gains the entry `WIN` when `fopen` opens it for
appending and is unchanged when that call fails.  Nothing is assumed about
`boardFull`, so a placement that also fills the board is a win as well. -/
theorem mainStep_player_wins (rng : Nat → Nat) (fuel : Nat) (g : Game) (pos : Nat)
    (hs : g.gameStarted ≠ 0) (h1 : 1 ≤ pos) (h9 : pos ≤ 9) (he : isEmpty g.board pos)
    (hw : checkWin (place g.board pos cX) = cX) :
    ∃ g2, mainStep rng fuel g (Input.digit pos) = some g2 ∧
      g2.gameStarted = 0 ∧ g2.board = place g.board pos cX ∧ g2.lastMove = pos ∧
      logCalled "WIN" g g2 ∧
      g2.out = g.out ++ [Event.boardPrint (cells (place g.board pos cX)),
        Event.text "You WIN!", Event.aiLine 2 (rng g.draws % 8)] ∧
      aiCalls g2.out = aiCalls g.out := by
  have hout : g.out ++ [Event.boardPrint (cells (place g.board pos cX))] ++
      [Event.text "You WIN!"] ++ [Event.aiLine 2 (rng g.draws % 8)] =
      g.out ++ [Event.boardPrint (cells (place g.board pos cX)),
        Event.text "You WIN!", Event.aiLine 2 (rng g.draws % 8)] := by simp
  have hstep : mainStep rng fuel g (Input.digit pos) =
      some { logResult "WIN" (aiSpeak rng 2 (emit (Event.text "You WIN!")
        (printBoard (afterPlayer pos g)))) with gameStarted := 0 } := by
    rw [mainStep_digit rng fuel g pos hs h1 h9, turn_valid rng fuel g pos he, if_pos hw]
  refine ⟨_, hstep, rfl, rfl, rfl, ?_, hout, ?_⟩
  · exact logResult_called "WIN" (aiSpeak rng 2 (emit (Event.text "You WIN!")
      (printBoard (afterPlayer pos g))))
  · show aiCalls (g.out ++ [Event.boardPrint (cells (place g.board pos cX))] ++
        [Event.text "You WIN!"] ++ [Event.aiLine 2 (rng g.draws % 8)]) = _
    rw [aiCalls_append, aiCalls_append, aiCalls_append]
    rfl

/-- Instances of C7: the human marks 3 after 1 and 2, uncontested; the human
completes a diagonal with the last Empty cell; and the same move when the log
cannot be opened. -/
theorem mainStep_player_wins_witness :
    (∃ g2, mainStep (fun _ => 0) 0 (gameOn boardTwoX) (Input.digit 3) = some g2 ∧
      g2.gameStarted = 0 ∧ g2.logfile = [(1, "WIN")] ∧
      cells g2.board = [88, 88, 88, 52, 53, 54, 55, 56, 57] ∧ aiCalls g2.out = 0) ∧
    (∃ g2, mainStep (fun _ => 0) 0 (gameOn boardLastWin) (Input.digit 9) = some g2 ∧
      g2.gameStarted = 0 ∧ g2.logfile = [(1, "WIN")] ∧ boardFull g2.board = 1 ∧
      aiCalls g2.out = 0) ∧
    (∃ g2, mainStep (fun _ => 0) 0 (gameNoLog boardLastWin) (Input.digit 9) = some g2 ∧
      g2.gameStarted = 0 ∧ g2.logfile = [] ∧ g2.opens = 2) := by
  refine ⟨?_, ?_, ?_⟩
  · obtain ⟨g2, hg, hs, hb, -, hl, -, ho⟩ :=
      mainStep_player_wins (fun _ => 0) 0 (gameOn boardTwoX) 3 (by decide) (by decide)
        (by decide) (by decide) (by decide)
    exact ⟨g2, hg, hs, hl.2.2.1 rfl, by rw [hb]; decide, ho⟩
  · obtain ⟨g2, hg, hs, hb, -, hl, -, ho⟩ :=
      mainStep_player_wins (fun _ => 0) 0 (gameOn boardLastWin) 9 (by decide) (by decide)
        (by decide) (by decide) (by decide)
    exact ⟨g2, hg, hs, hl.2.2.1 rfl, by rw [hb]; decide, ho⟩
  · obtain ⟨g2, hg, hs, -, -, hl, -, -⟩ :=
      mainStep_player_wins (fun _ => 0) 0 (gameNoLog boardLastWin) 9 (by decide) (by decide)
        (by decide) (by decide) (by decide)
    exact ⟨g2, hg, hs, hl.2.2.2 rfl, hl.1⟩

theorem aiCalls_aiMove (rng : Nat → Nat) (fuel : Nat) (g g2 : Game)
    (h : aiMove rng fuel g = some g2) : aiCalls g2.out = aiCalls g.out + 1 := by
  obtain ⟨r, c, -, -, -, -, -, -, -, -, ho, -⟩ := aiMove_frame rng fuel g g2 h
  rw [ho, aiCalls_append]
  rfl

/-- **C8.** In a session in progress, after a valid human move that neither
wins nor fills the board, the step is one call of `aiMove` on the board the
human left: it returns exactly when that call returns (in particular when some
allowed fallback draw selects an Empty cell), with the board `aiMove` produced
and one more `Your last move` line in the output.  When `checkWin` is then `'O'`
the flag `gameStarted` is 0 and the outcome `LOSS` is handed to `logResult`
once: the log gains the entry `LOSS` when `fopen` opens it for appending and is
unchanged when that call fails.  Otherwise `gameStarted` is unchanged and
`logResult` is not called. -/
theorem mainStep_continues (rng : Nat → Nat) (fuel : Nat) (g : Game) (pos : Nat)
    (hs : g.gameStarted ≠ 0) (h1 : 1 ≤ pos) (h9 : pos ≤ 9) (he : isEmpty g.board pos)
    (hnw : checkWin (place g.board pos cX) ≠ cX) (hnf : boardFull (place g.board pos cX) = 0) :
    (aiMove rng fuel (afterPlayer pos g) = none →
      mainStep rng fuel g (Input.digit pos) = none) ∧
    (∀ g2, aiMove rng fuel (afterPlayer pos g) = some g2 →
      ∃ g3, mainStep rng fuel g (Input.digit pos) = some g3 ∧ g3.board = g2.board ∧
        aiCalls g3.out = aiCalls g.out + 1 ∧
        (checkWin g2.board = cO → g3.gameStarted = 0 ∧ logCalled "LOSS" g g3) ∧
        (checkWin g2.board ≠ cO → g3.gameStarted = g.gameStarted ∧ logUntouched g g3)) ∧
    (∀ n, n < fuel → ¬ drawnOccupied (place g.board pos cX) (rng (g.draws + 1 + n)) →
      ∃ g3, mainStep rng fuel g (Input.digit pos) = some g3) := by
  have hstep : mainStep rng fuel g (Input.digit pos) =
      match aiMove rng fuel (afterPlayer pos g) with
      | none => none
      | some g2 =>
        if checkWin g2.board = cO then
          some { logResult "LOSS" (aiSpeak rng 1 (emit (Event.text "AI WINS!")
            (printBoard g2))) with gameStarted := 0 }
        else some (printBoard g2) := by
    rw [mainStep_digit rng fuel g pos hs h1 h9, turn_valid rng fuel g pos he, if_neg hnw,
      if_neg (by rw [hnf]; decide)]
  have hsome : ∀ g2, aiMove rng fuel (afterPlayer pos g) = some g2 →
      ∃ g3, mainStep rng fuel g (Input.digit pos) = some g3 ∧ g3.board = g2.board ∧
        aiCalls g3.out = aiCalls g.out + 1 ∧
        (checkWin g2.board = cO → g3.gameStarted = 0 ∧ logCalled "LOSS" g g3) ∧
        (checkWin g2.board ≠ cO → g3.gameStarted = g.gameStarted ∧ logUntouched g g3) := by
    intro g2 hg2
    have hcalls := aiCalls_aiMove rng fuel _ g2 hg2
    obtain ⟨r, c, -, -, -, -, -, hgs, -, hlog, -, -⟩ := aiMove_frame rng fuel _ g2 hg2
    have hgs2 : g2.gameStarted = g.gameStarted := hgs
    have hlog2 : g2.logfile = g.logfile := hlog
    have hcalls2 : aiCalls g2.out = aiCalls g.out + 1 := hcalls
    have henv : g2.opens = g.opens ∧ g2.fopenOk = g.fopenOk :=
      aiMove_env rng fuel (afterPlayer pos g) g2 hg2
    rw [hstep, hg2]
    by_cases hw : checkWin g2.board = cO
    · simp only [if_pos hw]
      refine ⟨_, rfl, rfl, ?_, fun _ => ⟨rfl, ?_⟩, fun h => absurd hw h⟩
      · show aiCalls (g2.out ++ [Event.boardPrint (cells g2.board)] ++
          [Event.text "AI WINS!"] ++ [Event.aiLine 1 (rng g2.draws % 8)]) = _
        rw [aiCalls_append, aiCalls_append, aiCalls_append, hcalls2]
        rfl
      · exact logCalled_congr "LOSS" g g2 _ henv.1 henv.2 hlog2
          (logResult_called "LOSS" (aiSpeak rng 1 (emit (Event.text "AI WINS!")
            (printBoard g2))))
    · simp only [if_neg hw]
      refine ⟨_, rfl, rfl, ?_, fun h => absurd h hw, fun _ => ⟨hgs2, hlog2, henv.1, henv.2⟩⟩
      show aiCalls (g2.out ++ [Event.boardPrint (cells g2.board)]) = _
      rw [aiCalls_append, hcalls2]
      rfl
  refine ⟨fun h => by rw [hstep, h], hsome, ?_⟩
  intro n hn hfree
  obtain ⟨g2, hg2, -⟩ := aiMove_returns_of_draw rng (afterPlayer pos g) n fuel hfree hn
  obtain ⟨g3, hg3, -⟩ := hsome g2 hg2
  exact ⟨g3, hg3⟩

/-- Instances of C8: a reply on the random branch after which the game goes
on, and a reply that completes the middle row. -/
theorem mainStep_continues_witness :
    (∃ g3, mainStep (fun n => n + 1) 1 (gameOn boardOpen) (Input.digit 9) = some g3 ∧
      cells g3.board = [88, 50, 79, 52, 79, 54, 55, 56, 88] ∧ g3.gameStarted = 1 ∧
      g3.logfile = [] ∧ aiCalls g3.out = 1) ∧
    (∃ g3, mainStep (fun _ => 0) 0 (gameOn boardPreLoss) (Input.digit 9) = some g3 ∧
      cells g3.board = [88, 88, 51, 79, 79, 79, 55, 56, 88] ∧ g3.gameStarted = 0 ∧
      g3.logfile = [(1, "LOSS")] ∧ aiCalls g3.out = 1) := by
  constructor
  · have hnw : ∀ q, 1 ≤ q → q ≤ 9 → ¬ probe (afterPlayer 9 (gameOn boardOpen)).board cO q := by
      intro q h1 h9; interval_cases q <;> decide
    have hnb : ∀ q, 1 ≤ q → q ≤ 9 → ¬ probe (afterPlayer 9 (gameOn boardOpen)).board cX q := by
      intro q h1 h9; interval_cases q <;> decide
    have hai := aiMove_random (fun n => n + 1) 1 (afterPlayer 9 (gameOn boardOpen)) hnw hnb
    rw [show drawMove (fun n => n + 1) (afterPlayer 9 (gameOn boardOpen)).board 1
      ((afterPlayer 9 (gameOn boardOpen)).draws + 1) = some (2, 2) by decide] at hai
    obtain ⟨g3, hg3, hb, hc, -, hstay⟩ :=
      (mainStep_continues (fun n => n + 1) 1 (gameOn boardOpen) 9 (by decide) (by decide)
        (by decide) (by decide) (by decide) (by decide)).2.1 _ hai
    obtain ⟨hs, hl⟩ := hstay (by decide)
    exact ⟨g3, hg3, by rw [hb]; decide, hs, hl.1, hc⟩
  · have hai := aiMove_win (fun _ => 0) 0 (afterPlayer 9 (gameOn boardPreLoss)) 6 (by decide)
      (by decide) (by decide) (by intro q h1 h6; interval_cases q <;> decide)
    obtain ⟨g3, hg3, hb, hc, hloss, -⟩ :=
      (mainStep_continues (fun _ => 0) 0 (gameOn boardPreLoss) 9 (by decide) (by decide)
        (by decide) (by decide) (by decide) (by decide)).2.1 _ hai
    obtain ⟨hs, hl⟩ := hloss (by decide)
    exact ⟨g3, hg3, by rw [hb]; decide, hs, hl.2.2.1 rfl, hc⟩

/-- **C9.** In a session in progress, when a valid human move leaves all 9
cells occupied and no line completed, the step returns with `gameStarted = 0`,
the board as the human left it and no call of `aiMove` (no `Your last move`
line, no draw of `rand()`).  The outcome `DRAW` is handed to `logResult` once:
the log gains the entry `DRAW` when `fopen` opens it for appending and is
unchanged when that call fails. -/
theorem mainStep_draw (rng : Nat → Nat) (fuel : Nat) (g : Game) (pos : Nat)
    (hs : g.gameStarted ≠ 0) (h1 : 1 ≤ pos) (h9 : pos ≤ 9) (he : isEmpty g.board pos)
    (hfull : ∀ r c, r < 3 → c < 3 →
      place g.board pos cX r c = cX ∨ place g.board pos cX r c = cO)
    (hno : noLine (place g.board pos cX)) :
    ∃ g2, mainStep rng fuel g (Input.digit pos) = some g2 ∧
      g2.gameStarted = 0 ∧ g2.board = place g.board pos cX ∧
      logCalled "DRAW" g g2 ∧
      g2.out = g.out ++ [Event.boardPrint (cells (place g.board pos cX)),
        Event.text "DRAW!"] ∧
      aiCalls g2.out = aiCalls g.out ∧ g2.draws = g.draws := by
  have hnw : checkWin (place g.board pos cX) ≠ cX := by
    intro h
    obtain ⟨L, hL, ho⟩ := checkWin_occupies _ cX h (by decide)
    exact (hno L hL).1 ho
  have hf : boardFull (place g.board pos cX) ≠ 0 := by
    rw [(boardFull_eq_one_iff _).2 hfull]
    decide
  have hout : g.out ++ [Event.boardPrint (cells (place g.board pos cX))] ++
      [Event.text "DRAW!"] =
      g.out ++ [Event.boardPrint (cells (place g.board pos cX)), Event.text "DRAW!"] := by
    simp
  have hstep : mainStep rng fuel g (Input.digit pos) =
      some { logResult "DRAW" (emit (Event.text "DRAW!") (printBoard (afterPlayer pos g))) with
        gameStarted := 0 } := by
    rw [mainStep_digit rng fuel g pos hs h1 h9, turn_valid rng fuel g pos he,
      if_neg hnw, if_pos hf]
  refine ⟨_, hstep, rfl, rfl,
    logResult_called "DRAW" (emit (Event.text "DRAW!") (printBoard (afterPlayer pos g))),
    hout, ?_, rfl⟩
  show aiCalls (g.out ++ [Event.boardPrint (cells (place g.board pos cX))] ++
      [Event.text "DRAW!"]) = _
  rw [aiCalls_append, aiCalls_append]
  rfl

/-- Instance of C9: `'X'` on 9 fills `X O X / X O O / O X 9`. -/
theorem mainStep_draw_witness :
    ∃ g2, mainStep (fun _ => 0) 0 (gameOn boardLastDraw) (Input.digit 9) = some g2 ∧
      g2.gameStarted = 0 ∧ cells g2.board = [88, 79, 88, 88, 79, 79, 79, 88, 88] ∧
      g2.logfile = [(1, "DRAW")] ∧ aiCalls g2.out = 0 := by
  obtain ⟨g2, hg, hs, hb, hl, -, ho, -⟩ :=
    mainStep_draw (fun _ => 0) 0 (gameOn boardLastDraw) 9 (by decide) (by decide)
      (by decide) (by decide)
      (by intro r c hr hc; interval_cases r <;> interval_cases c <;> decide) (by decide)
  exact ⟨g2, hg, hs, by rw [hb]; decide, hl.2.2.1 rfl, ho⟩

/-- **C10.** In a session in progress, submitting a position of 1..9 whose cell
holds `'X'` or `'O'` changes nothing but the output: `playerMove` returns 0, the
board, `lastMove`, `gameStarted`, the log and the number of draws are unchanged,
`Invalid move!` is written and `aiMove` is not called. -/
theorem mainStep_occupied (rng : Nat → Nat) (fuel : Nat) (g : Game) (pos : Nat)
    (hs : g.gameStarted ≠ 0) (h1 : 1 ≤ pos) (h9 : pos ≤ 9)
    (ho : cellAt g.board pos = cX ∨ cellAt g.board pos = cO) :
    (playerMove pos g).1 = 0 ∧
    ∃ g2, mainStep rng fuel g (Input.digit pos) = some g2 ∧
      g2.board = g.board ∧ g2.lastMove = g.lastMove ∧ g2.gameStarted = g.gameStarted ∧
      g2.logfile = g.logfile ∧ g2.draws = g.draws ∧
      g2.out = g.out ++ [Event.text "Invalid move!"] ∧ aiCalls g2.out = aiCalls g.out := by
  have hstep : mainStep rng fuel g (Input.digit pos) =
      some (emit (Event.text "Invalid move!") g) := by
    rw [mainStep_digit rng fuel g pos hs h1 h9, turn_invalid rng fuel g pos ho]
  refine ⟨by rw [playerMove_occupied pos g ho], _, hstep, rfl, rfl, rfl, rfl, rfl, rfl, ?_⟩
  show aiCalls (g.out ++ [Event.text "Invalid move!"]) = _
  rw [aiCalls_append]
  rfl

/-- Instance of C10: position 5 submitted on `X X 3 / 4 O 6 / 7 8 9`. -/
theorem mainStep_occupied_witness :
    (playerMove 5 (gameOn boardBlock)).1 = 0 ∧
    ∃ g2, mainStep (fun _ => 0) 0 (gameOn boardBlock) (Input.digit 5) = some g2 ∧
      cells g2.board = cells boardBlock ∧ g2.gameStarted = 1 ∧ g2.logfile = [] ∧
      aiCalls g2.out = 0 := by
  obtain ⟨hp, g2, hg, hb, -, hs, hl, -, -, hc⟩ :=
    mainStep_occupied (fun _ => 0) 0 (gameOn boardBlock) 5 (by decide) (by decide) (by decide)
      (by decide)
  exact ⟨hp, g2, hg, by rw [hb]; rfl, hs, hl, hc⟩

/-! ## Claims about `playerMove`, the start command and `boardFull` -/

/-- **C11.** For a position `pos` of 1..9 the indices `(pos-1)/3` and `(pos-1)%3`
lie in 0..2 and `pos = 3 * row + column + 1`; the map is one-to-one on 1..9 and
reaches each of the 9 cells; position 1 is the top-left cell.  When the cell of
`pos` is Empty, `playerMove` returns 1, writes `'X'` on exactly that cell, leaves
every other cell unchanged and sets `lastMove = pos`; the rest of the state is
untouched. -/
theorem playerMove_valid (g : Game) (pos : Nat) (h1 : 1 ≤ pos) (h9 : pos ≤ 9) :
    ((pos - 1) / 3 < 3 ∧ (pos - 1) % 3 < 3 ∧ 3 * ((pos - 1) / 3) + (pos - 1) % 3 + 1 = pos) ∧
    (∀ q, 1 ≤ q → q ≤ 9 → (q - 1) / 3 = (pos - 1) / 3 → (q - 1) % 3 = (pos - 1) % 3 →
      q = pos) ∧
    (∀ r c, r < 3 → c < 3 →
      ∃ p, 1 ≤ p ∧ p ≤ 9 ∧ (p - 1) / 3 = r ∧ (p - 1) % 3 = c) ∧
    ((1 - 1) / 3 = 0 ∧ (1 - 1) % 3 = 0) ∧
    (isEmpty g.board pos →
      (playerMove pos g).1 = 1 ∧
      (playerMove pos g).2.board ((pos - 1) / 3) ((pos - 1) % 3) = cX ∧
      (∀ i j, ¬ (i = (pos - 1) / 3 ∧ j = (pos - 1) % 3) →
        (playerMove pos g).2.board i j = g.board i j) ∧
      (playerMove pos g).2.lastMove = pos ∧
      (playerMove pos g).2.gameStarted = g.gameStarted ∧
      (playerMove pos g).2.logfile = g.logfile ∧ (playerMove pos g).2.out = g.out ∧
      (playerMove pos g).2.draws = g.draws) := by
  refine ⟨by omega, fun q hq1 hq9 hr hc => by omega, fun r c hr hc =>
    ⟨3 * r + c + 1, by omega, by omega, by omega, by omega⟩, by decide, ?_⟩
  intro he
  rw [playerMove_empty pos g he]
  refine ⟨rfl, setCell_same _ _ _ _, fun i j hij => setCell_other _ _ _ _ _ _ hij,
    rfl, rfl, rfl, rfl, rfl⟩

/-- Instance of C11: position 5 on `X X 3 / 4 5 6 / 7 8 9`. -/
theorem playerMove_valid_witness :
    (playerMove 5 (gameOn boardTwoX)).1 = 1 ∧
    cells (playerMove 5 (gameOn boardTwoX)).2.board = [88, 88, 51, 52, 88, 54, 55, 56, 57] ∧
    (playerMove 5 (gameOn boardTwoX)).2.lastMove = 5 := by
  obtain ⟨-, -, -, -, h⟩ := playerMove_valid (gameOn boardTwoX) 5 (by decide) (by decide)
  obtain ⟨hr, -, -, hl, -⟩ := h (by decide)
  exact ⟨hr, by decide, hl⟩

/-- **C12.** Whatever the board and the session state before, the start command
returns a state in which the cell of each position `p` of 1..9 holds the digit
`p` (so no cell holds a mark), `gameStarted = 1`, `boardFull` is 0 and
`checkWin` is 0; the log is not touched. -/
theorem start_resets (rng : Nat → Nat) (fuel : Nat) (g : Game) :
    ∃ g2, mainStep rng fuel g Input.start = some g2 ∧
      (∀ p, 1 ≤ p → p ≤ 9 → cellAt g2.board p = c1 + (p - 1) ∧ isEmpty g2.board p) ∧
      (∀ r c, r < 3 → c < 3 → g2.board r c ≠ cX ∧ g2.board r c ≠ cO) ∧
      g2.gameStarted = 1 ∧ boardFull g2.board = 0 ∧ checkWin g2.board = 0 ∧
      g2.logfile = g.logfile := by
  have hstep : mainStep rng fuel g Input.start =
      some (printBoard (emit (Event.text "Game started!")
        { g with board := initBoard g.board, gameStarted := 1 })) := rfl
  have hcell : ∀ r c, r < 3 → c < 3 → initBoard g.board r c ≠ cX ∧ initBoard g.board r c ≠ cO := by
    intro r c hr hc
    rw [initBoard_cell g.board r c hr hc]
    simp only [cX, cO, c1]
    omega
  have hpos : ∀ p, 1 ≤ p → p ≤ 9 →
      cellAt (initBoard g.board) p = c1 + (p - 1) ∧ isEmpty (initBoard g.board) p := by
    intro p h1 h9
    have hv : cellAt (initBoard g.board) p = c1 + (p - 1) := by
      unfold cellAt
      rw [initBoard_cell g.board _ _ (by omega) (by omega)]
      omega
    exact ⟨hv, hcell _ _ (by omega) (by omega)⟩
  refine ⟨_, hstep, hpos, hcell, rfl, ?_, ?_, rfl⟩
  · show boardFull (initBoard g.board) = 0
    rcases boardFull_range (initBoard g.board) with h | h
    · exact h
    · have := (boardFull_eq_one_iff _).1 h 0 0 (by decide) (by decide)
      have h00 := hcell 0 0 (by decide) (by decide)
      rcases this with h' | h'
      · exact absurd h' h00.1
      · exact absurd h' h00.2
  · show checkWin (initBoard g.board) = 0
    rw [checkWin_zero_iff _ (initBoard_wellFormed g.board)]
    intro L hL
    obtain ⟨b1, b2, -⟩ := lines_bound L hL
    constructor
    · intro ho; exact (hcell _ _ b1 b2).1 ho.1
    · intro ho; exact (hcell _ _ b1 b2).2 ho.1

/-- Instance of C12: a restart after the drawn board `X O X / X O O / O X 9`. -/
theorem start_resets_witness :
    ∃ g2, mainStep (fun _ => 0) 0 { gameOn boardLastDraw with gameStarted := 0 } Input.start
        = some g2 ∧
      cells g2.board = [49, 50, 51, 52, 53, 54, 55, 56, 57] ∧ g2.gameStarted = 1 := by
  obtain ⟨g2, hg, -, -, hs, -⟩ :=
    start_resets (fun _ => 0) 0 { gameOn boardLastDraw with gameStarted := 0 }
  refine ⟨g2, hg, ?_, hs⟩
  cases hg
  decide

/-- **C13.** For every board, `boardFull` is 1 exactly when each of the 9 cells
holds `'X'` or `'O'`, and 0 exactly when some cell holds neither. -/
theorem boardFull_correct (b : Board) :
    (boardFull b = 1 ↔ ∀ r c, r < 3 → c < 3 → b r c = cX ∨ b r c = cO) ∧
    (boardFull b = 0 ↔ ∃ r c, r < 3 ∧ c < 3 ∧ b r c ≠ cX ∧ b r c ≠ cO) := by
  refine ⟨boardFull_eq_one_iff b, ?_⟩
  constructor
  · intro h0
    by_contra hne
    have hall : ∀ r c, r < 3 → c < 3 → b r c = cX ∨ b r c = cO := by
      intro r c hr hc
      by_contra hcon
      push_neg at hcon
      exact hne ⟨r, c, hr, hc, hcon.1, hcon.2⟩
    have := (boardFull_eq_one_iff b).2 hall
    omega
  · rintro ⟨r, c, hr, hc, hx, ho⟩
    rcases boardFull_range b with h | h
    · exact h
    · rcases (boardFull_eq_one_iff b).1 h r c hr hc with h' | h'
      · exact absurd h' hx
      · exact absurd h' ho

/-- Instance of C13: `X O X / X O O / O X 9` is not full. -/
theorem boardFull_correct_witness :
    boardFull boardLastDraw = 0 ∧
    ∃ r c, r < 3 ∧ c < 3 ∧ boardLastDraw r c ≠ cX ∧ boardLastDraw r c ≠ cO :=
  ⟨by decide, (boardFull_correct boardLastDraw).2.1 (by decide)⟩

/-! ## Counting marks and lines after a placement -/

theorem countMark_setCell_same (b : Board) (r c m : Nat) (hr : r < 3) (hc : c < 3)
    (hne : b r c ≠ m) : countMark (setCell b r c m) m = countMark b m + 1 := by
  interval_cases r <;> interval_cases c <;>
    simp [countMark, cells, setCell, List.count_cons, hne] <;> omega

theorem countMark_setCell_other (b : Board) (r c m k : Nat) (hr : r < 3) (hc : c < 3)
    (hne : b r c ≠ k) (hmk : m ≠ k) : countMark (setCell b r c m) k = countMark b k := by
  interval_cases r <;> interval_cases c <;>
    simp [countMark, cells, setCell, List.count_cons, hne, hmk]

theorem count_marks_length (l : List Nat) (h : ∀ x ∈ l, x = cX ∨ x = cO) :
    l.count cX + l.count cO = l.length := by
  induction l with
  | nil => rfl
  | cons a t ih =>
    have ht := ih (fun x hx => h x (List.mem_cons_of_mem _ hx))
    rcases h a (List.mem_cons_self _ _) with rfl | rfl <;>
      simp [List.count_cons] <;> omega

theorem countMark_full (b : Board) (h : ∀ r c, r < 3 → c < 3 → b r c = cX ∨ b r c = cO) :
    countMark b cX + countMark b cO = 9 := by
  have := count_marks_length (cells b) (by
    intro x hx
    simp only [cells, List.mem_cons, List.mem_singleton, List.not_mem_nil, or_false] at hx
    rcases hx with rfl | rfl | rfl | rfl | rfl | rfl | rfl | rfl | rfl <;>
      exact h _ _ (by decide) (by decide))
  simpa [countMark, cells] using this

theorem occupies_of_setCell_ne (b : Board) (r c m k : Nat) (L : Line) (hne : k ≠ m)
    (ho : occupies (setCell b r c m) k L) : occupies b k L := by
  obtain ⟨h1, h2, h3⟩ := ho
  refine ⟨?_, ?_, ?_⟩
  · unfold setCell at h1; split_ifs at h1 with hc
    · exact absurd h1.symm hne
    · exact h1
  · unfold setCell at h2; split_ifs at h2 with hc
    · exact absurd h2.symm hne
    · exact h2
  · unfold setCell at h3; split_ifs at h3 with hc
    · exact absurd h3.symm hne
    · exact h3

/-- After a mark is written on a board without a completed line, the other mark
has no line, and there is no line at all unless `checkWin` reports the mark. -/
theorem noLine_after (b : Board) (hwf : WellFormed b) (hno : noLine b) (r c m k : Nat)
    (hm : (m = cX ∧ k = cO) ∨ (m = cO ∧ k = cX)) :
    (∀ L ∈ lines, ¬ occupies (setCell b r c m) k L) ∧
    (checkWin (setCell b r c m) ≠ m → noLine (setCell b r c m) ∧
      checkWin (setCell b r c m) = 0) := by
  have hkm : k ≠ m := by rcases hm with ⟨rfl, rfl⟩ | ⟨rfl, rfl⟩ <;> decide
  have hk0 : k ≠ 0 := by rcases hm with ⟨rfl, rfl⟩ | ⟨rfl, rfl⟩ <;> decide
  have hmark : m = cX ∨ m = cO := by rcases hm with ⟨rfl, -⟩ | ⟨rfl, -⟩ <;> simp
  have hother : ∀ L ∈ lines, ¬ occupies (setCell b r c m) k L := by
    intro L hL ho
    have hb := occupies_of_setCell_ne b r c m k L hkm ho
    rcases hm with ⟨-, rfl⟩ | ⟨-, rfl⟩
    · exact (hno L hL).2 hb
    · exact (hno L hL).1 hb
  refine ⟨hother, fun hne => ?_⟩
  have hwf2 := wellFormed_setCell b hwf r c m hmark
  have h0 : checkWin (setCell b r c m) = 0 := by
    have hk : checkWin (setCell b r c m) ≠ k := by
      intro h
      obtain ⟨L, hL, ho⟩ := checkWin_occupies _ k h hk0
      exact hother L hL ho
    rcases checkWin_range _ hwf2 with h | h | h
    · exact h
    · rcases hm with ⟨rfl, rfl⟩ | ⟨rfl, rfl⟩
      · exact absurd h hne
      · exact absurd h hk
    · rcases hm with ⟨rfl, rfl⟩ | ⟨rfl, rfl⟩
      · exact absurd h hk
      · exact absurd h hne
  exact ⟨(checkWin_zero_iff _ hwf2).1 h0, h0⟩

/-! ## One iteration of `main`, by cases -/

/-- The five ways in which one iteration of `main` can end. -/
theorem mainStep_cases (rng : Nat → Nat) (fuel : Nat) (g : Game) (i : Input) (g2 : Game)
    (h : mainStep rng fuel g i = some g2) :
    (i = Input.start ∧ g2.board = initBoard g.board ∧ g2.gameStarted = 1 ∧
      logUntouched g g2 ∧ aiCalls g2.out = aiCalls g.out) ∨
    (g2.board = g.board ∧ g2.gameStarted = g.gameStarted ∧ logUntouched g g2 ∧
      aiCalls g2.out = aiCalls g.out) ∨
    (∃ pos, i = Input.digit pos ∧ g.gameStarted ≠ 0 ∧ 1 ≤ pos ∧ pos ≤ 9 ∧
      isEmpty g.board pos ∧
      ((checkWin (place g.board pos cX) = cX ∧ g2.board = place g.board pos cX ∧
          g2.gameStarted = 0 ∧ logCalled "WIN" g g2 ∧
          aiCalls g2.out = aiCalls g.out) ∨
       (checkWin (place g.board pos cX) ≠ cX ∧ boardFull (place g.board pos cX) = 1 ∧
          g2.board = place g.board pos cX ∧ g2.gameStarted = 0 ∧
          logCalled "DRAW" g g2 ∧
          aiCalls g2.out = aiCalls g.out) ∨
       (checkWin (place g.board pos cX) ≠ cX ∧ boardFull (place g.board pos cX) = 0 ∧
          ∃ r c, r < 3 ∧ c < 3 ∧
            (place g.board pos cX r c ≠ cX ∧ place g.board pos cX r c ≠ cO) ∧
            g2.board = setCell (place g.board pos cX) r c cO ∧
            aiCalls g2.out = aiCalls g.out + 1 ∧
            ((checkWin g2.board = cO ∧ g2.gameStarted = 0 ∧ logCalled "LOSS" g g2) ∨
             (checkWin g2.board ≠ cO ∧ g2.gameStarted = g.gameStarted ∧
                logUntouched g g2))))) := by
  cases i with
  | start =>
    have hs : mainStep rng fuel g Input.start = some (printBoard (emit (Event.text "Game started!")
        { g with board := initBoard g.board, gameStarted := 1 })) := rfl
    rw [hs] at h
    cases h
    refine Or.inl ⟨rfl, rfl, rfl, ⟨rfl, rfl, rfl⟩, ?_⟩
    show aiCalls (g.out ++ [Event.text "Game started!"] ++
      [Event.boardPrint (cells (initBoard g.board))]) = _
    rw [aiCalls_append, aiCalls_append]
    rfl
  | digit pos =>
    by_cases hg : g.gameStarted ≠ 0 ∧ 1 ≤ pos ∧ pos ≤ 9
    · obtain ⟨hs, h1, h9⟩ := hg
      rw [mainStep_digit rng fuel g pos hs h1 h9] at h
      by_cases he : isEmpty g.board pos
      · refine Or.inr (Or.inr ⟨pos, rfl, hs, h1, h9, he, ?_⟩)
        rw [turn_valid rng fuel g pos he] at h
        by_cases hw : checkWin (place g.board pos cX) = cX
        · rw [if_pos hw] at h
          cases h
          refine Or.inl ⟨hw, rfl, rfl, logResult_called "WIN" (aiSpeak rng 2
            (emit (Event.text "You WIN!") (printBoard (afterPlayer pos g)))), ?_⟩
          show aiCalls (g.out ++ [Event.boardPrint (cells (place g.board pos cX))] ++
            [Event.text "You WIN!"] ++ [Event.aiLine 2 (rng g.draws % 8)]) = _
          rw [aiCalls_append, aiCalls_append, aiCalls_append]
          rfl
        · rw [if_neg hw] at h
          by_cases hf : boardFull (place g.board pos cX) ≠ 0
          · rw [if_pos hf] at h
            cases h
            have hf1 : boardFull (place g.board pos cX) = 1 := by
              rcases boardFull_range (place g.board pos cX) with h0 | h1
              · exact absurd h0 hf
              · exact h1
            refine Or.inr (Or.inl ⟨hw, hf1, rfl, rfl, logResult_called "DRAW"
              (emit (Event.text "DRAW!") (printBoard (afterPlayer pos g))), ?_⟩)
            show aiCalls (g.out ++ [Event.boardPrint (cells (place g.board pos cX))] ++
              [Event.text "DRAW!"]) = _
            rw [aiCalls_append, aiCalls_append]
            rfl
          · rw [if_neg hf] at h
            have hf0 : boardFull (place g.board pos cX) = 0 := not_not.1 hf
            cases hai : aiMove rng fuel (afterPlayer pos g) with
            | none => rw [hai] at h; simp at h
            | some g3 =>
              rw [hai] at h
              simp only [] at h
              obtain ⟨r, c, hr, hc, he1, he2, hb, hgs, -, hlog, -, -⟩ :=
                aiMove_frame rng fuel (afterPlayer pos g) g3 hai
              have hcalls : aiCalls g3.out = aiCalls g.out + 1 :=
                aiCalls_aiMove rng fuel (afterPlayer pos g) g3 hai
              have hb2 : g3.board = setCell (place g.board pos cX) r c cO := hb
              have hgs2 : g3.gameStarted = g.gameStarted := hgs
              have hlog2 : g3.logfile = g.logfile := hlog
              have henv : g3.opens = g.opens ∧ g3.fopenOk = g.fopenOk :=
                aiMove_env rng fuel (afterPlayer pos g) g3 hai
              refine Or.inr (Or.inr ⟨hw, hf0, r, c, hr, hc, ⟨he1, he2⟩, ?_⟩)
              by_cases ho : checkWin g3.board = cO
              · rw [if_pos ho] at h
                cases h
                refine ⟨hb2, ?_, Or.inl ⟨ho, rfl, ?_⟩⟩
                · show aiCalls (g3.out ++ [Event.boardPrint (cells g3.board)] ++
                    [Event.text "AI WINS!"] ++ [Event.aiLine 1 (rng g3.draws % 8)]) = _
                  rw [aiCalls_append, aiCalls_append, aiCalls_append, hcalls]
                  rfl
                · exact logCalled_congr "LOSS" g g3 _ henv.1 henv.2 hlog2
                    (logResult_called "LOSS" (aiSpeak rng 1 (emit (Event.text "AI WINS!")
                      (printBoard g3))))
              · rw [if_neg ho] at h
                cases h
                refine ⟨hb2, ?_, Or.inr ⟨ho, hgs2, hlog2, henv.1, henv.2⟩⟩
                show aiCalls (g3.out ++ [Event.boardPrint (cells g3.board)]) = _
                rw [aiCalls_append, hcalls]
                rfl
      · have hocc : cellAt g.board pos = cX ∨ cellAt g.board pos = cO := by
          unfold isEmpty at he
          by_contra hcon
          push_neg at hcon
          exact he ⟨hcon.1, hcon.2⟩
        rw [turn_invalid rng fuel g pos hocc] at h
        cases h
        refine Or.inr (Or.inl ⟨rfl, rfl, ⟨rfl, rfl, rfl⟩, ?_⟩)
        show aiCalls (g.out ++ [Event.text "Invalid move!"]) = _
        rw [aiCalls_append]
        rfl
    · have hs : mainStep rng fuel g (Input.digit pos) =
          some (emit (Event.text "Unknown command. Type /help") g) := by
        show (if g.gameStarted ≠ 0 ∧ 1 ≤ pos ∧ pos ≤ 9 then _ else _) = _
        rw [if_neg hg]
      rw [hs] at h
      cases h
      refine Or.inr (Or.inl ⟨rfl, rfl, ⟨rfl, rfl, rfl⟩, ?_⟩)
      show aiCalls (g.out ++ [Event.text "Unknown command. Type /help"]) = _
      rw [aiCalls_append]
      rfl

/-! ## The log along a session -/

theorem run_cons (rng : Nat → Nat) (fuel : Nat) (g : Game) (i : Input) (rest : List Input)
    (tr : List Game) (h : run rng fuel g (i :: rest) = some tr) :
    ∃ g2 tr2, mainStep rng fuel g i = some g2 ∧ run rng fuel g2 rest = some tr2 ∧
      tr = g2 :: tr2 := by
  unfold run at h
  cases hm : mainStep rng fuel g i with
  | none => rw [hm] at h; simp at h
  | some g2 =>
    rw [hm] at h
    simp only [] at h
    cases hr : run rng fuel g2 rest with
    | none => rw [hr] at h; simp at h
    | some tr2 =>
      rw [hr] at h
      simp only [Option.some.injEq] at h
      exact ⟨g2, tr2, rfl, hr, h.symm⟩

/-- What one iteration of `main` does to the log. -/
theorem mainStep_log (rng : Nat → Nat) (fuel : Nat) (g : Game) (i : Input) (g2 : Game)
    (h : mainStep rng fuel g i = some g2) :
    (g.gameStarted ≠ 0 ∧ g2.gameStarted = 0 ∧
      ∃ res, (res = "WIN" ∨ res = "LOSS" ∨ res = "DRAW") ∧ logCalled res g g2) ∨
    (¬ (g.gameStarted ≠ 0 ∧ g2.gameStarted = 0) ∧ logUntouched g g2) := by
  rcases mainStep_cases rng fuel g i g2 h with ⟨-, -, hs, hl, -⟩ | ⟨-, hs, hl, -⟩ |
    ⟨pos, -, hs, -, -, -, hc⟩
  · exact Or.inr ⟨fun hh => by omega, hl⟩
  · exact Or.inr ⟨fun hh => hh.1 (hs ▸ hh.2), hl⟩
  · rcases hc with ⟨-, -, h0, hl, -⟩ | ⟨-, -, -, h0, hl, -⟩ | ⟨-, -, r, c, -, -, -, -, -, hc2⟩
    · exact Or.inl ⟨hs, h0, "WIN", Or.inl rfl, hl⟩
    · exact Or.inl ⟨hs, h0, "DRAW", Or.inr (Or.inr rfl), hl⟩
    · rcases hc2 with ⟨-, h0, hl⟩ | ⟨-, hgs, hl⟩
      · exact Or.inl ⟨hs, h0, "LOSS", Or.inr (Or.inl rfl), hl⟩
      · exact Or.inr ⟨fun hh => hs (hgs ▸ hh.2), hl⟩

/-- **C14.** One iteration of `main` on a start command or a position either
leads from a game in progress to a state without one and calls `logResult`
exactly once, with `WIN`, `LOSS` or `DRAW`, or is no such transition and does
not call it: a start command (also one that abandons a game), a rejected move, a
move after which the game goes on and a position without a game leave the log
and the count of `fopen` calls unchanged.  A call of `logResult` appends exactly
one entry when `fopen` opens the log for appending and none when that call
fails.  Hence along any sequence of such inputs: `logResult` is called once per
transition (two `fopen` calls each); the log only grows, by entries of the three
kinds; it never gains more entries than there are transitions; and when every
`fopen` succeeds it gains exactly one entry per transition. -/
theorem log_one_entry_per_ending (rng : Nat → Nat) (fuel : Nat) (g : Game) :
    (∀ i g2, mainStep rng fuel g i = some g2 →
      (g.gameStarted ≠ 0 ∧ g2.gameStarted = 0 ∧
        ∃ res, (res = "WIN" ∨ res = "LOSS" ∨ res = "DRAW") ∧ logCalled res g g2) ∨
      (¬ (g.gameStarted ≠ 0 ∧ g2.gameStarted = 0) ∧ logUntouched g g2)) ∧
    (∀ inputs tr, run rng fuel g inputs = some tr →
      tr.length = inputs.length ∧
      (lastState g tr).fopenOk = g.fopenOk ∧
      (lastState g tr).opens = g.opens + 2 * endings g tr ∧
      (lastState g tr).logfile.length ≤ g.logfile.length + endings g tr ∧
      ((∀ k, g.fopenOk k = true) →
        (lastState g tr).logfile.length = g.logfile.length + endings g tr) ∧
      ∃ added, (lastState g tr).logfile = g.logfile ++ added ∧
        ∀ e ∈ added, e.2 = "WIN" ∨ e.2 = "LOSS" ∨ e.2 = "DRAW") := by
  refine ⟨fun i g2 h => mainStep_log rng fuel g i g2 h, ?_⟩
  intro inputs
  induction inputs generalizing g with
  | nil =>
    intro tr h
    have : tr = [] := by
      unfold run at h
      simpa using h.symm
    subst this
    exact ⟨rfl, rfl, rfl, Nat.le_refl _, fun _ => rfl, [], by simp [lastState], by simp⟩
  | cons i rest ih =>
    intro tr h
    obtain ⟨g2, tr2, hm, hr, rfl⟩ := run_cons rng fuel g i rest tr h
    obtain ⟨hlen, henv, hopens, hle, heq, added, hadd, hres⟩ := ih g2 tr2 hr
    have hend : endings g (g2 :: tr2) =
        (if g.gameStarted ≠ 0 ∧ g2.gameStarted = 0 then 1 else 0) + endings g2 tr2 := rfl
    have hlast : lastState g (g2 :: tr2) = lastState g2 tr2 := rfl
    rw [hend, hlast]
    rcases mainStep_log rng fuel g i g2 hm with ⟨h1, h2, res, hres2, hc⟩ | ⟨hn, hu⟩
    · obtain ⟨hl1, hl2, added1, hadd1, hres1⟩ := logCalled_length res g g2 hc
      obtain ⟨ho, hf, -, -⟩ := hc
      rw [if_pos ⟨h1, h2⟩]
      refine ⟨by simp [hlen], by rw [henv, hf], by rw [hopens, ho]; omega, by omega, ?_,
        added1 ++ added, by rw [hadd, hadd1, List.append_assoc], ?_⟩
      · intro hall
        have e1 := heq (fun k => by rw [hf]; exact hall k)
        have e2 := hl2 (hall _)
        omega
      · intro e he
        rcases List.mem_append.1 he with he | he
        · rw [hres1 e he]
          exact hres2
        · exact hres e he
    · obtain ⟨hl, ho, hf⟩ := hu
      rw [if_neg hn]
      refine ⟨by simp [hlen], by rw [henv, hf], by rw [hopens, ho]; omega,
        by rw [hl] at hle; omega, ?_, added, by rw [hadd, hl], hres⟩
      intro hall
      have e1 := heq (fun k => by rw [hf]; exact hall k)
      rw [hl] at e1
      omega

/-- Instances of C14: the example run `sessionInputs`, with the draws
0, 1, 2, …, has one ending (a win of the human) among its eleven steps.  When
every `fopen` succeeds the log gains the one entry `WIN`; when every `fopen`
fails `logResult` is still called once and the log stays empty. -/
theorem log_one_entry_per_ending_witness :
    (∃ tr, run (fun n => n) 20 Game.initial sessionInputs = some tr ∧ tr.length = 11 ∧
      endings Game.initial tr = 1 ∧ (lastState Game.initial tr).opens = 2 ∧
      (lastState Game.initial tr).logfile = [(1, "WIN")]) ∧
    (∃ tr, run (fun n => n) 20 initialNoLog sessionInputs = some tr ∧ tr.length = 11 ∧
      endings initialNoLog tr = 1 ∧ (lastState initialNoLog tr).opens = 2 ∧
      (lastState initialNoLog tr).logfile = []) := by
  constructor
  · have hev : (run (fun n => n) 20 Game.initial sessionInputs).map
        (fun tr => (endings Game.initial tr, (lastState Game.initial tr).logfile)) =
        some (1, [(1, "WIN")]) := by decide
    cases hr : run (fun n => n) 20 Game.initial sessionInputs with
    | none => rw [hr] at hev; simp at hev
    | some tr =>
      rw [hr] at hev
      simp only [Option.map_some', Option.some.injEq, Prod.mk.injEq] at hev
      obtain ⟨hlen, -, hopens, -⟩ :=
        (log_one_entry_per_ending (fun n => n) 20 Game.initial).2 sessionInputs tr hr
      rw [hev.1] at hopens
      exact ⟨tr, rfl, hlen, hev.1, hopens, hev.2⟩
  · have hev : (run (fun n => n) 20 initialNoLog sessionInputs).map
        (fun tr => (endings initialNoLog tr, (lastState initialNoLog tr).logfile)) =
        some (1, []) := by decide
    cases hr : run (fun n => n) 20 initialNoLog sessionInputs with
    | none => rw [hr] at hev; simp at hev
    | some tr =>
      rw [hr] at hev
      simp only [Option.map_some', Option.some.injEq, Prod.mk.injEq] at hev
      obtain ⟨hlen, -, hopens, -⟩ :=
        (log_one_entry_per_ending (fun n => n) 20 initialNoLog).2 sessionInputs tr hr
      rw [hev.1] at hopens
      exact ⟨tr, rfl, hlen, hev.1, hopens, hev.2⟩

/-! ## The invariant of a session -/

theorem initBoard_no_mark (b : Board) (r c : Nat) (hr : r < 3) (hc : c < 3) :
    initBoard b r c ≠ cX ∧ initBoard b r c ≠ cO := by
  rw [initBoard_cell b r c hr hc]
  simp only [cX, cO, c1]
  omega

theorem initBoard_noLine (b : Board) : noLine (initBoard b) := by
  intro L hL
  obtain ⟨b1, b2, -⟩ := lines_bound L hL
  exact ⟨fun ho => (initBoard_no_mark b _ _ b1 b2).1 ho.1,
    fun ho => (initBoard_no_mark b _ _ b1 b2).2 ho.1⟩

theorem cells_initBoard (b : Board) :
    cells (initBoard b) = [49, 50, 51, 52, 53, 54, 55, 56, 57] := by
  simp [cells, initBoard_cell]

theorem countMark_initBoard (b : Board) :
    countMark (initBoard b) cX = 0 ∧ countMark (initBoard b) cO = 0 := by
  unfold countMark
  rw [cells_initBoard]
  exact ⟨by decide, by decide⟩

theorem not_both_of_noLine (b : Board) (h : noLine b) : ¬ (hasLine b cX ∧ hasLine b cO) := by
  rintro ⟨⟨L, hL, ho⟩, -⟩
  exact (h L hL).1 ho

theorem boardFull_zero_of_counts (b : Board) (h : countMark b cX = countMark b cO) :
    boardFull b = 0 := by
  rcases boardFull_range b with h0 | h1
  · exact h0
  · have := countMark_full b ((boardFull_eq_one_iff b).1 h1)
    omega

theorem exists_empty_of_not_full (b : Board) (h : boardFull b = 0) :
    ∃ p, 1 ≤ p ∧ p ≤ 9 ∧ isEmpty b p := by
  by_contra hne
  have hall : ∀ r c, r < 3 → c < 3 → b r c = cX ∨ b r c = cO := by
    intro r c hr hc
    by_contra hcon
    push_neg at hcon
    refine hne ⟨3 * r + c + 1, by omega, by omega, ?_⟩
    unfold isEmpty cellAt
    rw [show (3 * r + c + 1 - 1) / 3 = r by omega, show (3 * r + c + 1 - 1) % 3 = c by omega]
    exact hcon
  have := (boardFull_eq_one_iff b).2 hall
  omega

/-- The board after a valid human placement and the reply of `aiMove`, in a
session whose state satisfies `Inv`. -/
theorem reply_facts (b : Board) (hwf : WellFormed b) (hno : noLine b)
    (hcnt : countMark b cX = countMark b cO) (pos : Nat) (h1 : 1 ≤ pos) (h9 : pos ≤ 9)
    (he : isEmpty b pos) :
    WellFormed (place b pos cX) ∧ ¬ hasLine (place b pos cX) cO ∧
    countMark (place b pos cX) cX = countMark (place b pos cX) cO + 1 ∧
    (checkWin (place b pos cX) ≠ cX →
      noLine (place b pos cX) ∧ checkWin (place b pos cX) = 0 ∧
      ∀ r c, r < 3 → c < 3 →
        place b pos cX r c ≠ cX ∧ place b pos cX r c ≠ cO →
        WellFormed (setCell (place b pos cX) r c cO) ∧
        ¬ hasLine (setCell (place b pos cX) r c cO) cX ∧
        countMark (setCell (place b pos cX) r c cO) cX =
          countMark (setCell (place b pos cX) r c cO) cO ∧
        (checkWin (setCell (place b pos cX) r c cO) ≠ cO →
          noLine (setCell (place b pos cX) r c cO))) := by
  have hr : (pos - 1) / 3 < 3 := by omega
  have hc : (pos - 1) % 3 < 3 := Nat.mod_lt _ (by decide)
  have hwf1 : WellFormed (place b pos cX) := wellFormed_setCell b hwf _ _ cX (Or.inl rfl)
  obtain ⟨hnoO, hrest⟩ := noLine_after b hwf hno ((pos - 1) / 3) ((pos - 1) % 3) cX cO
    (Or.inl ⟨rfl, rfl⟩)
  have hcX : countMark (place b pos cX) cX = countMark b cX + 1 :=
    countMark_setCell_same b _ _ cX hr hc he.1
  have hcO : countMark (place b pos cX) cO = countMark b cO :=
    countMark_setCell_other b _ _ cX cO hr hc he.2 (by decide)
  refine ⟨hwf1, fun ⟨L, hL, ho⟩ => hnoO L hL ho, by omega, ?_⟩
  intro hne
  obtain ⟨hno1, h0⟩ := hrest hne
  refine ⟨hno1, h0, ?_⟩
  intro r c hr2 hc2 hemp
  obtain ⟨hnoX, hrest2⟩ := noLine_after (place b pos cX) hwf1 hno1 r c cO cX
    (Or.inr ⟨rfl, rfl⟩)
  have hcO2 := countMark_setCell_same (place b pos cX) r c cO hr2 hc2 hemp.2
  have hcX2 := countMark_setCell_other (place b pos cX) r c cO cX hr2 hc2 hemp.1 (by decide)
  exact ⟨wellFormed_setCell _ hwf1 r c cO (Or.inr rfl), fun ⟨L, hL, ho⟩ => hnoX L hL ho,
    by omega, fun hne2 => (hrest2 hne2).1⟩

theorem inv_start (rng : Nat → Nat) (fuel : Nat) (g g2 : Game)
    (h : mainStep rng fuel g Input.start = some g2) : Inv g2 := by
  have hs : mainStep rng fuel g Input.start = some (printBoard (emit (Event.text "Game started!")
      { g with board := initBoard g.board, gameStarted := 1 })) := rfl
  rw [hs] at h
  cases h
  refine ⟨initBoard_wellFormed g.board, not_both_of_noLine _ (initBoard_noLine g.board),
    fun _ => ⟨initBoard_noLine g.board, ?_⟩,
    fun h0 => absurd (show (1 : Nat) = 0 from h0) (by decide)⟩
  show countMark (initBoard g.board) cX = countMark (initBoard g.board) cO
  rw [(countMark_initBoard g.board).1, (countMark_initBoard g.board).2]

theorem inv_step (rng : Nat → Nat) (fuel : Nat) (g : Game) (i : Input) (g2 : Game)
    (hinv : Inv g) (h : mainStep rng fuel g i = some g2) : Inv g2 := by
  obtain ⟨hwf, hboth, hprog, hterm⟩ := hinv
  rcases mainStep_cases rng fuel g i g2 h with ⟨rfl, -⟩ | ⟨hb, hs, -⟩ |
    ⟨pos, -, hs, h1, h9, he, hc⟩
  · exact inv_start rng fuel g g2 h
  · unfold Inv
    rw [hb, hs]
    exact ⟨hwf, hboth, hprog, hterm⟩
  · obtain ⟨hno, hcnt⟩ := hprog hs
    obtain ⟨hwf1, hnoO, hc1, hrest⟩ := reply_facts g.board hwf hno hcnt pos h1 h9 he
    rcases hc with ⟨-, hb, h0, -⟩ | ⟨-, -, hb, h0, -⟩ | ⟨hne, -, r, c, hr, hcc, hemp, hb, -, hc2⟩
    · unfold Inv
      rw [hb, h0]
      exact ⟨hwf1, fun hh => hnoO hh.2, fun hh => absurd rfl hh, fun _ => Or.inr hc1⟩
    · unfold Inv
      rw [hb, h0]
      exact ⟨hwf1, fun hh => hnoO hh.2, fun hh => absurd rfl hh, fun _ => Or.inr hc1⟩
    · obtain ⟨-, -, hr2⟩ := hrest hne
      obtain ⟨hwf2, hnoX, hc2', hno2⟩ := hr2 r c hr hcc hemp
      unfold Inv
      rw [hb]
      rcases hc2 with ⟨-, h0, -⟩ | ⟨hno3, hgs, -⟩
      · rw [h0]
        exact ⟨hwf2, fun hh => hnoX hh.1, fun hh => absurd rfl hh, fun _ => Or.inl hc2'⟩
      · rw [hb] at hno3
        exact ⟨hwf2, fun hh => hnoX hh.1, fun _ => ⟨hno2 hno3, hc2'⟩,
          fun h0 => absurd (hgs ▸ h0) hs⟩

theorem run_inv (rng : Nat → Nat) (fuel : Nat) (inputs : List Input) (g : Game)
    (tr : List Game) (hfirst : ∀ i rest, inputs = i :: rest → i = Input.start ∨ Inv g)
    (h : run rng fuel g inputs = some tr) : ∀ s ∈ tr, Inv s := by
  induction inputs generalizing g tr with
  | nil =>
    have : tr = [] := by
      unfold run at h
      simpa using h.symm
    subst this
    intro s hs
    simp at hs
  | cons i rest ih =>
    obtain ⟨g2, tr2, hm, hr, rfl⟩ := run_cons rng fuel g i rest tr h
    have hinv2 : Inv g2 := by
      rcases hfirst i rest rfl with rfl | hg
      · exact inv_start rng fuel g g2 hm
      · exact inv_step rng fuel g i g2 hg hm
    intro s hs
    rcases List.mem_cons.1 hs with rfl | hs
    · exact hinv2
    · exact ih g2 tr2 (fun _ _ _ => Or.inr hinv2) hr s hs

theorem session_inv (rng : Nat → Nat) (fuel : Nat) (g0 : Game) (inputs : List Input)
    (tr : List Game) (h : run rng fuel g0 (Input.start :: inputs) = some tr) :
    ∀ s ∈ tr, Inv s :=
  run_inv rng fuel _ g0 tr (fun i rest hi => Or.inl (by cases hi; rfl)) h

/-! ## Claims about sessions -/

/-- The example run `Input.start :: gameInputs` runs to its end with the draws
0, 1, 2, …. -/
theorem gameInputs_run :
    ∃ tr, run (fun n => n) 20 Game.initial (Input.start :: gameInputs) = some tr := by
  have hev : (run (fun n => n) 20 Game.initial (Input.start :: gameInputs)).isSome = true := by
    decide
  exact Option.isSome_iff_exists.1 hev

/-- **C15.** Let `s` be a state of a session, that is of a run of `main` on a
start command followed by any start commands and positions.  If a game is in
progress in `s` (the program waits for the human), the board has as many `'X'`
as `'O'`, is not full and has an Empty position.  If the board of `s` is full,
no game is in progress and `'X'` has one cell more than `'O'`: the last
placement was the human's.  And after any iteration from `s` in which `aiMove`
was called, the board has as many `'X'` as `'O'` and is not full. -/
theorem never_full_after_reply (rng : Nat → Nat) (fuel : Nat) (g0 : Game)
    (inputs : List Input) (tr : List Game)
    (h : run rng fuel g0 (Input.start :: inputs) = some tr) (s : Game) (hs : s ∈ tr) :
    (s.gameStarted ≠ 0 →
      countMark s.board cX = countMark s.board cO ∧ boardFull s.board = 0 ∧
      ∃ p, 1 ≤ p ∧ p ≤ 9 ∧ isEmpty s.board p) ∧
    (boardFull s.board = 1 →
      s.gameStarted = 0 ∧ countMark s.board cX = countMark s.board cO + 1) ∧
    (∀ i s2, mainStep rng fuel s i = some s2 → aiCalls s2.out = aiCalls s.out + 1 →
      countMark s2.board cX = countMark s2.board cO ∧ boardFull s2.board = 0) := by
  obtain ⟨hwf, hboth, hprog, hterm⟩ := session_inv rng fuel g0 inputs tr h s hs
  refine ⟨?_, ?_, ?_⟩
  · intro hst
    obtain ⟨-, hcnt⟩ := hprog hst
    have hnf := boardFull_zero_of_counts s.board hcnt
    exact ⟨hcnt, hnf, exists_empty_of_not_full s.board hnf⟩
  · intro hfull
    have h9 := countMark_full s.board ((boardFull_eq_one_iff s.board).1 hfull)
    have hst : s.gameStarted = 0 := by
      by_contra hne
      have := (hprog hne).2
      omega
    rcases hterm hst with heq | hone
    · omega
    · exact ⟨hst, hone⟩
  · intro i s2 hstep hcalls
    rcases mainStep_cases rng fuel s i s2 hstep with ⟨-, -, -, -, hc⟩ | ⟨-, -, -, hc⟩ |
      ⟨pos, -, hst, h1, h9, he, hc⟩
    · omega
    · omega
    · obtain ⟨hno, hcnt⟩ := hprog hst
      obtain ⟨-, -, -, hrest⟩ := reply_facts s.board hwf hno hcnt pos h1 h9 he
      rcases hc with ⟨-, -, -, -, hc⟩ | ⟨-, -, -, -, -, hc⟩ |
        ⟨hne, -, r, c, hr, hcc, hemp, hb, -, -⟩
      · omega
      · omega
      · obtain ⟨-, -, hr2⟩ := hrest hne
        obtain ⟨-, -, hc2, -⟩ := hr2 r c hr hcc hemp
        rw [hb]
        exact ⟨hc2, boardFull_zero_of_counts _ hc2⟩

/-- Instance of C15: the states of the example run `Input.start :: gameInputs`. -/
theorem never_full_after_reply_witness :
    ∃ tr, run (fun n => n) 20 Game.initial (Input.start :: gameInputs) = some tr ∧
      ∀ s ∈ tr, s.gameStarted ≠ 0 →
        countMark s.board cX = countMark s.board cO ∧ boardFull s.board = 0 := by
  obtain ⟨tr, hr⟩ := gameInputs_run
  refine ⟨tr, hr, fun s hs hst => ?_⟩
  obtain ⟨h1, -, -⟩ := never_full_after_reply (fun n => n) 20 Game.initial gameInputs tr hr s hs
  exact ⟨(h1 hst).1, (h1 hst).2.1⟩

/-- The iteration of `main` on a position that reaches the call of `aiMove`. -/
theorem mainStep_reply (rng : Nat → Nat) (fuel : Nat) (g : Game) (pos : Nat)
    (hs : g.gameStarted ≠ 0) (h1 : 1 ≤ pos) (h9 : pos ≤ 9) (he : isEmpty g.board pos)
    (hnw : checkWin (place g.board pos cX) ≠ cX) (hnf : boardFull (place g.board pos cX) = 0) :
    aiArg g (Input.digit pos) = some (afterPlayer pos g) ∧
    mainStep rng fuel g (Input.digit pos) =
      match aiMove rng fuel (afterPlayer pos g) with
      | none => none
      | some g2 =>
        if checkWin g2.board = cO then
          some { logResult "LOSS" (aiSpeak rng 1 (emit (Event.text "AI WINS!")
            (printBoard g2))) with gameStarted := 0 }
        else some (printBoard g2) := by
  constructor
  · simp only [aiArg]
    rw [if_pos ⟨hs, h1, h9⟩, playerMove_empty pos g he]
    simp only [if_neg (show ¬ (1 = 0) by decide)]
    rw [if_neg hnw, if_neg (by rw [hnf]; decide)]
    rfl
  · rw [mainStep_digit rng fuel g pos hs h1 h9, turn_valid rng fuel g pos he, if_neg hnw,
      if_neg (by rw [hnf]; decide)]

/-- When `aiArg` is `none` the iteration does not depend on `aiMove`. -/
theorem aiArg_cases (g : Game) (i : Input) :
    aiArg g i = none ∨
    ∃ pos, i = Input.digit pos ∧ g.gameStarted ≠ 0 ∧ 1 ≤ pos ∧ pos ≤ 9 ∧ isEmpty g.board pos ∧
      checkWin (place g.board pos cX) ≠ cX ∧ boardFull (place g.board pos cX) = 0 ∧
      aiArg g i = some (afterPlayer pos g) := by
  cases i with
  | start => exact Or.inl rfl
  | digit pos =>
    by_cases hg : g.gameStarted ≠ 0 ∧ 1 ≤ pos ∧ pos ≤ 9
    · by_cases he : isEmpty g.board pos
      · by_cases hw : checkWin (place g.board pos cX) = cX
        · left
          simp only [aiArg]
          rw [if_pos hg, playerMove_empty pos g he]
          simp only [if_neg (show ¬ (1 = 0) by decide)]
          rw [if_pos hw]
        · by_cases hf : boardFull (place g.board pos cX) ≠ 0
          · left
            simp only [aiArg]
            rw [if_pos hg, playerMove_empty pos g he]
            simp only [if_neg (show ¬ (1 = 0) by decide)]
            rw [if_neg hw, if_pos hf]
          · right
            have hf0 : boardFull (place g.board pos cX) = 0 := not_not.1 hf
            exact ⟨pos, rfl, hg.1, hg.2.1, hg.2.2, he, hw, hf0,
              (mainStep_reply (fun _ => 0) 0 g pos hg.1 hg.2.1 hg.2.2 he hw hf0).1⟩
      · left
        have hocc : cellAt g.board pos = cX ∨ cellAt g.board pos = cO := by
          unfold isEmpty at he
          by_contra hcon
          push_neg at hcon
          exact he ⟨hcon.1, hcon.2⟩
        simp only [aiArg]
        rw [if_pos hg, playerMove_occupied pos g hocc]
        simp
    · left
      simp only [aiArg]
      rw [if_neg hg]


/-- **C16.** Let `s` be a state of a session and `i` the next line.  If the
iteration of `main` on `i` does not reach the call of `aiMove`, it returns
without the line that `aiMove` writes.  If it reaches the call, the board handed
to `aiMove` has an Empty position, `boardFull` is 0 and `checkWin` is 0 on it
(no line is completed by either mark), the iteration returns exactly when
`aiMove` does, and `aiMove` is called once. -/
theorem aiMove_precondition (rng : Nat → Nat) (fuel : Nat) (g0 : Game)
    (inputs : List Input) (tr : List Game)
    (h : run rng fuel g0 (Input.start :: inputs) = some tr) (s : Game) (hs : s ∈ tr)
    (i : Input) :
    (aiArg s i = none →
      ∃ s2, mainStep rng fuel s i = some s2 ∧ aiCalls s2.out = aiCalls s.out) ∧
    (∀ g1, aiArg s i = some g1 →
      ((∃ p, 1 ≤ p ∧ p ≤ 9 ∧ isEmpty g1.board p) ∧ checkWin g1.board = 0 ∧
        noLine g1.board ∧ boardFull g1.board = 0) ∧
      (aiMove rng fuel g1 = none → mainStep rng fuel s i = none) ∧
      (∀ g2, aiMove rng fuel g1 = some g2 →
        ∃ s2, mainStep rng fuel s i = some s2 ∧ s2.board = g2.board ∧
          aiCalls s2.out = aiCalls s.out + 1)) := by
  obtain ⟨hwf, hboth, hprog, hterm⟩ := session_inv rng fuel g0 inputs tr h s hs
  rcases aiArg_cases s i with hnone | ⟨pos, rfl, hst, h1, h9, he, hnw, hnf, harg⟩
  · refine ⟨fun _ => ?_, fun g1 hg1 => absurd (hnone.symm.trans hg1) (by simp)⟩
    -- without a call of `aiMove` the iteration returns for every bound on the draws
    cases i with
    | start => exact ⟨_, rfl, by
        show aiCalls (s.out ++ [Event.text "Game started!"] ++
          [Event.boardPrint (cells (initBoard s.board))]) = _
        rw [aiCalls_append, aiCalls_append]
        rfl⟩
    | digit pos =>
      by_cases hg : s.gameStarted ≠ 0 ∧ 1 ≤ pos ∧ pos ≤ 9
      · obtain ⟨hst, h1, h9⟩ := hg
        by_cases he : isEmpty s.board pos
        · by_cases hw : checkWin (place s.board pos cX) = cX
          · refine ⟨_, by rw [mainStep_digit rng fuel s pos hst h1 h9,
              turn_valid rng fuel s pos he, if_pos hw], ?_⟩
            show aiCalls (s.out ++ [Event.boardPrint (cells (place s.board pos cX))] ++
              [Event.text "You WIN!"] ++ [Event.aiLine 2 (rng s.draws % 8)]) = _
            rw [aiCalls_append, aiCalls_append, aiCalls_append]
            rfl
          · by_cases hf : boardFull (place s.board pos cX) ≠ 0
            · refine ⟨_, by rw [mainStep_digit rng fuel s pos hst h1 h9,
                turn_valid rng fuel s pos he, if_neg hw, if_pos hf], ?_⟩
              show aiCalls (s.out ++ [Event.boardPrint (cells (place s.board pos cX))] ++
                [Event.text "DRAW!"]) = _
              rw [aiCalls_append, aiCalls_append]
              rfl
            · have := (mainStep_reply rng fuel s pos hst h1 h9 he hw (not_not.1 hf)).1
              rw [hnone] at this
              cases this
        · have hocc : cellAt s.board pos = cX ∨ cellAt s.board pos = cO := by
            unfold isEmpty at he
            by_contra hcon
            push_neg at hcon
            exact he ⟨hcon.1, hcon.2⟩
          refine ⟨_, by rw [mainStep_digit rng fuel s pos hst h1 h9,
            turn_invalid rng fuel s pos hocc], ?_⟩
          show aiCalls (s.out ++ [Event.text "Invalid move!"]) = _
          rw [aiCalls_append]
          rfl
      · refine ⟨emit (Event.text "Unknown command. Type /help") s, ?_, ?_⟩
        · show (if s.gameStarted ≠ 0 ∧ 1 ≤ pos ∧ pos ≤ 9 then _ else _) = _
          rw [if_neg hg]
        · show aiCalls (s.out ++ [Event.text "Unknown command. Type /help"]) = _
          rw [aiCalls_append]
          rfl
  · refine ⟨fun hn => absurd (harg.symm.trans hn) (by simp), ?_⟩
    intro g1 hg1
    rw [harg] at hg1
    cases hg1
    obtain ⟨hno, hcnt⟩ := hprog hst
    obtain ⟨-, -, -, hrest⟩ := reply_facts s.board hwf hno hcnt pos h1 h9 he
    obtain ⟨hno1, h0, -⟩ := hrest hnw
    have hstep := (mainStep_reply rng fuel s pos hst h1 h9 he hnw hnf).2
    refine ⟨⟨exists_empty_of_not_full _ hnf, h0, hno1, hnf⟩, ?_, ?_⟩
    · intro hnone
      rw [hstep, hnone]
    · intro g2 hg2
      have hcalls : aiCalls g2.out = aiCalls s.out + 1 :=
        aiCalls_aiMove rng fuel (afterPlayer pos s) g2 hg2
      rw [hstep, hg2]
      by_cases hw : checkWin g2.board = cO
      · simp only [if_pos hw]
        refine ⟨_, rfl, rfl, ?_⟩
        show aiCalls (g2.out ++ [Event.boardPrint (cells g2.board)] ++
          [Event.text "AI WINS!"] ++ [Event.aiLine 1 (rng g2.draws % 8)]) = _
        rw [aiCalls_append, aiCalls_append, aiCalls_append, hcalls]
        rfl
      · simp only [if_neg hw]
        refine ⟨_, rfl, rfl, ?_⟩
        show aiCalls (g2.out ++ [Event.boardPrint (cells g2.board)]) = _
        rw [aiCalls_append, hcalls]
        rfl

/-- Instance of C16: every call of `aiMove` from a state of the example run
`Input.start :: gameInputs`. -/
theorem aiMove_precondition_witness :
    ∃ tr, run (fun n => n) 20 Game.initial (Input.start :: gameInputs) = some tr ∧
      ∀ s ∈ tr, ∀ i g1, aiArg s i = some g1 →
        checkWin g1.board = 0 ∧ boardFull g1.board = 0 := by
  obtain ⟨tr, hr⟩ := gameInputs_run
  refine ⟨tr, hr, fun s hs i g1 hg1 => ?_⟩
  obtain ⟨-, h2⟩ := aiMove_precondition (fun n => n) 20 Game.initial gameInputs tr hr s hs i
  obtain ⟨⟨-, h0, -, hf⟩, -⟩ := h2 g1 hg1
  exact ⟨h0, hf⟩

theorem scanLines_cases (b : Board) (order : List Line) :
    (∃ L ∈ order, uniform b L ∧ scanLines b order = b L.1.1 L.1.2) ∨
    ((∀ L ∈ order, ¬ uniform b L) ∧ scanLines b order = 0) := by
  induction order with
  | nil => exact Or.inr ⟨fun L hL => by simp at hL, rfl⟩
  | cons L rest ih =>
    unfold scanLines
    by_cases hu : uniform b L
    · rw [if_pos hu]
      exact Or.inl ⟨L, List.mem_cons_self _ _, hu, rfl⟩
    · rw [if_neg hu]
      rcases ih with ⟨L2, hL2, hu2, hv⟩ | ⟨hn, hv⟩
      · exact Or.inl ⟨L2, List.mem_cons_of_mem _ hL2, hu2, hv⟩
      · refine Or.inr ⟨fun L3 hL3 => ?_, hv⟩
        rcases List.mem_cons.1 hL3 with rfl | h3
        · exact hu
        · exact hn L3 h3

theorem checkWin_eq_scanLines (b : Board) : checkWin b = scanLines b codeOrder := by
  rw [checkWin_unfold]
  simp only [scanLines, codeOrder, uniform]

/-- On a well-formed board on which the two marks do not both own a line, every
line owned by a mark gives the result of `checkWin`, and so does a scan of the
lines in any order. -/
theorem checkWin_order_free (b : Board) (hwf : WellFormed b)
    (hboth : ¬ (hasLine b cX ∧ hasLine b cO)) :
    (∀ m L, (m = cX ∨ m = cO) → L ∈ lines → occupies b m L → checkWin b = m) ∧
    (∀ order : List Line, (∀ L, L ∈ order ↔ L ∈ lines) →
      scanLines b order = checkWin b) := by
  have hone : ∀ m L, (m = cX ∨ m = cO) → L ∈ lines → occupies b m L → checkWin b = m := by
    intro m L hm hL ho
    rcases checkWin_cases b with ⟨L2, hL2, hu, hv⟩ | ⟨hn, -⟩
    · rcases uniform_mark b hwf L2 hL2 hu with ho2 | ho2 <;> rcases hm with rfl | rfl
      · rw [hv, ho2.1]
      · exact absurd ⟨⟨L2, hL2, ho2⟩, ⟨L, hL, ho⟩⟩ hboth
      · exact absurd ⟨⟨L, hL, ho⟩, ⟨L2, hL2, ho2⟩⟩ hboth
      · rw [hv, ho2.1]
    · exact absurd (occupies_uniform b m L ho) (hn L hL)
  refine ⟨hone, ?_⟩
  intro order hord
  rcases scanLines_cases b order with ⟨L, hL, hu, hv⟩ | ⟨hn, hv⟩
  · have hLl := (hord L).1 hL
    rcases uniform_mark b hwf L hLl hu with ho | ho
    · rw [hv, ho.1, hone cX L (Or.inl rfl) hLl ho]
    · rw [hv, ho.1, hone cO L (Or.inr rfl) hLl ho]
  · rcases checkWin_cases b with ⟨L2, hL2, hu, -⟩ | ⟨-, h0⟩
    · exact absurd hu (hn L2 ((hord L2).2 hL2))
    · rw [hv, h0]

/-- **C17.** On the board of every state of a session the two marks do not both
fully occupy a line.  Hence every line owned by a mark gives the result of
`checkWin`, `checkWin` is the scan of the lines in its own order, and a scan of
the 8 lines in any other order gives the same result. -/
theorem at_most_one_winner (rng : Nat → Nat) (fuel : Nat) (g0 : Game)
    (inputs : List Input) (tr : List Game)
    (h : run rng fuel g0 (Input.start :: inputs) = some tr) (s : Game) (hs : s ∈ tr) :
    ¬ (hasLine s.board cX ∧ hasLine s.board cO) ∧
    (∀ m L, (m = cX ∨ m = cO) → L ∈ lines → occupies s.board m L → checkWin s.board = m) ∧
    checkWin s.board = scanLines s.board codeOrder ∧
    (∀ order : List Line, (∀ L, L ∈ order ↔ L ∈ lines) →
      scanLines s.board order = checkWin s.board) := by
  obtain ⟨hwf, hboth, -, -⟩ := session_inv rng fuel g0 inputs tr h s hs
  obtain ⟨h1, h2⟩ := checkWin_order_free s.board hwf hboth
  exact ⟨hboth, h1, checkWin_eq_scanLines s.board, h2⟩

/-- Instance of C17: the states of the example run `Input.start :: gameInputs`. -/
theorem at_most_one_winner_witness :
    ∃ tr, run (fun n => n) 20 Game.initial (Input.start :: gameInputs) = some tr ∧
      ∀ s ∈ tr, ¬ (hasLine s.board cX ∧ hasLine s.board cO) ∧
        scanLines s.board lines = checkWin s.board := by
  obtain ⟨tr, hr⟩ := gameInputs_run
  refine ⟨tr, hr, fun s hs => ?_⟩
  obtain ⟨h1, -, -, h4⟩ :=
    at_most_one_winner (fun n => n) 20 Game.initial gameInputs tr hr s hs
  exact ⟨h1, h4 lines (fun _ => Iff.rfl)⟩

end TicTacToe
